import Mathlib

/-!
Verification of the KenKen solver in `src/kenken/kenken.py`.

The Python module is shallowly embedded: every function of the source is
translated into an executable Lean definition operating on a functional
model of the solver state.  Python `set`s of candidate values are modelled
as duplicate-free `List Nat` values (comparisons between sets are modelled
by the content-based `setEq`, matching Python's `==` on sets); the
`candidates` dictionary is modelled as an association list whose keys are
laid out in the dictionary's insertion order (row-major, as produced by
`KenKenPuzzle.__init__`).  Python exceptions are modelled by explicit
result types: `PErr.noSolution` stands for `NoSolutionError` and
`PErr.valueError` for Python's `ValueError` (raised e.g. by `min` on an
empty sequence).  Unbounded `while` loops are modelled with an explicit
fuel parameter; termination theorems exhibit a sufficient fuel.
-/

namespace KenKenPy

/-- A 2-D coordinate of a cell in a KenKen, as in the source (`Cell`). -/
abbrev Cell := Nat × Nat

/-- A candidate set, modelling a Python `set` of ints as a list. -/
abbrev CSet := List Nat

/-- One possible solution for a cage of cells (`CageCombo` in the source). -/
abbrev CageCombo := List (Cell × Nat)

/-- The candidates mapping, modelling the `candidates` dict: an association
list from cells to candidate sets whose key layout never changes. -/
abbrev Grid := List (Cell × CSet)

/-- The arithmetic operation of a cage, a closed variant of the strings
`"+"`, `"-"`, `"*"`, `"/"` accepted by `validate`. -/
inductive Op
| add
| sub
| mul
| div
deriving DecidableEq, Repr

/-- A cage, mirroring the `Cage` named tuple: cells (the frozenset is
modelled as a duplicate-free list), target result and optional operation. -/
structure Cage where
cells : List Cell
result : Nat
operation : Option Op
deriving DecidableEq, Repr

/-- A puzzle: a size together with its cages, as held by `KenKenPuzzle`. -/
structure Puzzle where
size : Nat
cages : List Cage
deriving DecidableEq, Repr

/-- Python exceptions observable from the solver: `NoSolutionError` and
`ValueError` (the latter raised by `min` on an empty sequence). -/
inductive PErr
| noSolution
| valueError
deriving DecidableEq, Repr

instance {ε α : Type} [DecidableEq ε] [DecidableEq α] : DecidableEq (Except ε α) := fun a b =>
  match a, b with
  | .error e, .error e' =>
    if h : e = e' then .isTrue (h ▸ rfl) else .isFalse (fun hh => h (Except.error.inj hh))
  | .ok x, .ok y =>
    if h : x = y then .isTrue (h ▸ rfl) else .isFalse (fun hh => h (Except.ok.inj hh))
  | .error _, .ok _ => .isFalse (fun hh => Except.noConfusion hh)
  | .ok _, .error _ => .isFalse (fun hh => Except.noConfusion hh)

/-- Membership test on a modelled set, Python's `in`. -/
def smem (x : Nat) (s : CSet) : Bool := s.contains x

/-- Content equality of two modelled sets, Python's `==` on sets. -/
def setEq (a b : CSet) : Bool :=
  a.all (fun x => smem x b) && b.all (fun x => smem x a)

/-- Set difference, Python's `difference_update` (applied functionally). -/
def sdiff (a b : CSet) : CSet := a.filter (fun x => !(smem x b))

/-- In-place union, Python's `set.update` (new elements appended). -/
def sunion (a b : CSet) : CSet := a ++ b.filter (fun x => !(smem x a))

/-- Addition of one element, Python's `set.add`. -/
def sadd (a : CSet) (x : Nat) : CSet := if smem x a then a else a ++ [x]

/-- Insertion into a sorted duplicate-free list. -/
def sinsert (x : Nat) : CSet → CSet
| [] => [x]
| y :: ys => if x < y then x :: y :: ys else if x = y then y :: ys else y :: sinsert x ys

/-- Sorted duplicate-free image of a list, modelling the materialisation
`set(xs)` of a Python collection of small ints (ascending iteration). -/
def dedupSort (l : List Nat) : CSet := l.foldr sinsert []

/-- Lookup in an association list keyed by cells. -/
def lookupC (m : List (Cell × CSet)) (c : Cell) : Option CSet :=
  match m with
  | [] => none
  | (k, v) :: rest => if k = c then some v else lookupC rest c

/-- Lookup with the empty set as default. -/
def lookupD (m : List (Cell × CSet)) (c : Cell) : CSet := (lookupC m c).getD []

/-- Value of a cell in the candidates mapping. -/
def getCell (g : Grid) (c : Cell) : CSet := lookupD g c

/-- Map over the values of the candidates dict, keeping its key layout. -/
def mapVals (f : Cell → CSet → CSet) : Grid → Grid
| [] => []
| (c, v) :: rest => (c, f c v) :: mapVals f rest

/-- Model of `KenKenPuzzle._replace`: assign the given cells the values in
`updates` (keys absent from the grid are ignored; validated puzzles only
ever update existing cells). -/
def replaceUpd (g : Grid) (updates : List (Cell × CSet)) : Grid :=
  mapVals (fun c v => (lookupC updates c).getD v) g

/-- Model of `KenKenPuzzle._remove`: subtract the sets in `updates` from
the corresponding cells. -/
def removeUpd (g : Grid) (updates : List (Cell × CSet)) : Grid :=
  mapVals (fun c v => sdiff v (lookupD updates c)) g

/-- Model of `KenKenPuzzle._has_conflicts`: does any candidate set in the
grid come out empty? -/
def hasConflicts (g : Grid) : Bool := g.any (fun cv => cv.2.length = 0)

/-- Dictionary equality of two grids, Python's `==` on the candidates
dicts (same keys in the same layout, values equal as sets). -/
def gridEq : Grid → Grid → Bool
| [], [] => true
| (c, v) :: g, (c', v') :: g' => c = c' && setEq v v' && gridEq g g'
| _, _ => false

/-- The cells of the grid in dictionary order: row-major, as created by
`KenKenPuzzle.__init__`. -/
def allCells (size : Nat) : List Cell :=
  (List.range' 1 size).flatMap (fun i => (List.range' 1 size).map (fun j => (i, j)))

/-- The initial candidates mapping: every cell holds `{1, ..., size}`. -/
def initGrid (size : Nat) : Grid :=
  (allCells size).map (fun c => (c, List.range' 1 size))

/-- Model of `_gets_right_result`: check that `nums` under `operation`
produce `result`.  For `-` and `/` the first two entries are used, as in
the source (validated cages give these operations exactly two cells). -/
def getsRightResult (nums : List Nat) (operation : Option Op) (result : Nat) : Bool :=
  match operation with
  | some .add => nums.sum = result
  | some .mul => nums.prod = result
  | some .sub =>
    match nums with
    | a :: b :: _ => (max a b - min a b) = result
    | _ => false
  | some .div =>
    match nums with
    | a :: b :: _ => (result * a = b || result * b = a)
    | _ => false
  | none =>
    match nums with
    | a :: _ => a = result
    | _ => false

/-- Model of `_crosscheck`: no duplicate values in any pair of combo cells
sharing a row or a column. -/
def crosscheck : CageCombo → Bool
| [] => true
| (c, v) :: rest =>
  rest.all (fun cv => !(v = cv.2 && (c.1 = cv.1.1 || c.2 = cv.1.2))) && crosscheck rest

/-- All value tuples of the given length over `{1, ..., size}` in
lexicographic order, modelling `itertools.product(range(1, size+1),
repeat=len(cells))`. -/
def valueTuples (size : Nat) : Nat → List (List Nat)
| 0 => [[]]
| k + 1 => (List.range' 1 size).flatMap (fun v => (valueTuples size k).map (v :: ·))

/-- Model of `_get_possible_combos`: all possible combinations of cell
values for a cage (memoisation in the source is semantically invisible). -/
def getPossibleCombos (cage : Cage) (size : Nat) : List CageCombo :=
  if cage.cells.length = 1 then [[(cage.cells.headD (0, 0), cage.result)]]
  else
    (valueTuples size cage.cells.length).filterMap (fun values =>
      let combo := cage.cells.zip values
      if crosscheck combo && getsRightResult (combo.map Prod.snd) cage.operation cage.result
      then some combo else none)

/-- Model of `_remove_illegal`: keep the combos all of whose values are
still present in the corresponding candidate sets (the append-then-pop
loop of the source keeps exactly these). -/
def removeIllegal (combos : List CageCombo) (candidates : Grid) : List CageCombo :=
  combos.filter (fun combo => combo.all (fun cv => smem cv.2 (getCell candidates cv.1)))

/-- Insert-or-replace for an association list, modelling a Python dict
assignment (existing keys keep their position). -/
def upsert (m : List (Cell × CSet)) (c : Cell) (v : CSet) : List (Cell × CSet) :=
  match m with
  | [] => [(c, v)]
  | (k, w) :: rest => if k = c then (k, v) :: rest else (k, w) :: upsert rest c v

/-- Model of `_merge_combos`: merge the combos into one mapping, taking
per cell the set of values the cell assumes across the combos. -/
def mergeCombos (combos : List CageCombo) : List (Cell × CSet) :=
  combos.foldl (fun merged combo =>
    combo.foldl (fun m cv => upsert m cv.1 (sadd (lookupD m cv.1) cv.2)) merged) []

/-- One iteration of the loop in `_reduce_cages`, for a single cage. -/
def reduceCageStep (size : Nat) (g : Grid) (cage : Cage) : Grid :=
  replaceUpd g (mergeCombos (removeIllegal (getPossibleCombos cage size) g))

/-- Model of `_reduce_cages`: shorten the candidate sets cage by cage. -/
def reduceCages (p : Puzzle) (g : Grid) : Grid :=
  p.cages.foldl (reduceCageStep p.size) g

/-- The cells of row (`mode = true`) or column (`mode = false`) `idx`, in
dictionary order, as selected by `_get_slice`. -/
def sliceCells (size : Nat) (mode : Bool) (idx : Nat) : List Cell :=
  if mode then (List.range' 1 size).map (fun j => (idx, j))
  else (List.range' 1 size).map (fun i => (i, idx))

/-- The view a line pass holds of its slice.  `_get_slice` returns a dict
whose values alias the live candidate sets; `_replace` rebinds a cell to a
fresh set, after which the slice still sees the old one.  Each entry
records the cell, the set as seen through the slice, and whether the slice
still aliases the live set. -/
abbrev View := List (Cell × CSet × Bool)

/-- The slice as an association list of the currently viewed sets, the
shape every helper of `_reduce_rows_and_cols` receives. -/
def viewAssoc (view : View) : List (Cell × CSet) := view.map (fun e => (e.1, e.2.1))

/-- Apply a removal to the candidates and to the aliased part of the view,
modelling `kenken._remove` called while a slice is held. -/
def applyRemove (g : Grid) (view : View) (del : List (Cell × CSet)) : Grid × View :=
  (removeUpd g del,
   view.map (fun e => if e.2.2 then (e.1, sdiff e.2.1 (lookupD del e.1), true) else e))

/-- Apply a replacement to the candidates, marking the replaced cells as
no longer aliased by the view, modelling `kenken._replace`. -/
def applyReplace (g : Grid) (view : View) (upd : List (Cell × CSet)) : Grid × View :=
  (replaceUpd g upd,
   view.map (fun e => if (lookupC upd e.1).isSome then (e.1, e.2.1, false) else e))

/-- All combinations of `n` elements of a list, in the order produced by
`itertools.combinations`. -/
def combosList {α : Type} : Nat → List α → List (List α)
| 0, _ => [[]]
| _ + 1, [] => []
| n + 1, x :: xs => (combosList n xs).map (x :: ·) ++ combosList (n + 1) xs

/-- Adjacent pairwise equality of sets, the `all(...)` check of
`_find_exposed_groups` over one combination. -/
def adjEqual : List CSet → Bool
| [] => true
| [_] => true
| a :: b :: rest => setEq a b && adjEqual (b :: rest)

/-- Model of `_find_exposed_groups`: the cells (with their viewed sets)
that belong to some `n`-combination of cells of the slice whose candidate
sets all have exactly `n` elements and are all equal. -/
def findExposedGroups (row : List (Cell × CSet)) (n : Nat) : List (Cell × CSet) :=
  let lengthN := row.filter (fun cv => cv.2.length = n)
  if n ≤ lengthN.length then
    (combosList n lengthN).foldl (fun groups grp =>
      if adjEqual (grp.map Prod.snd) then
        grp.foldl (fun m cv => upsert m cv.1 cv.2) groups
      else groups) []
  else []

/-- Model of `_always_together`: `nums` appear together (all or none) in
every set of `arr`. -/
def alwaysTogether (nums : List Nat) (arr : List CSet) : Bool :=
  arr.all (fun el => nums.all (fun x => smem x el) || nums.all (fun x => !(smem x el)))

/-- Model of `_find_hidden_groups`: for every `n`-combination of values
that occur exactly `n` times in the slice and always occur together, map
each cell containing the combination to exactly those values (later
combinations overwrite earlier ones, as in the source's dict updates). -/
def findHiddenGroups (row : List (Cell × CSet)) (n : Nat) : List (Cell × CSet) :=
  let flat := (row.map Prod.snd).flatten
  let appearsN := (dedupSort flat).filter (fun i => flat.count i = n)
  if n ≤ appearsN.length then
    (combosList n appearsN).foldl (fun hidden combo =>
      if alwaysTogether combo (row.map Prod.snd) then
        row.foldl (fun h cv =>
          if combo.all (fun x => smem x cv.2) then upsert h cv.1 combo else h) hidden
      else hidden) []
  else []

/-- The values `_invert` schedules for removal at one cell: everything
some other cell is being fixed to, minus the cell's own assigned values
when it is itself updated. -/
def invertVal (updates : List (Cell × CSet)) (c : Cell) : CSet :=
  let tot := updates.foldl (fun acc kv => if kv.1 = c then acc else sunion acc kv.2) []
  if (lookupC updates c).isSome then sdiff tot (lookupD updates c) else tot

/-- Model of `_invert`: a new mapping specifying cells and values for
removal over the cells of the slice. -/
def invert (updates : List (Cell × CSet)) (rowCells : List Cell) : List (Cell × CSet) :=
  rowCells.map (fun c => (c, invertVal updates c))

/-- Model of `_check_no_duplicates`: fail if two sets of the slice are
equal singletons. -/
def checkNoDuplicates : List CSet → Except PErr Unit
| [] => .ok ()
| v :: rest =>
  if rest.any (fun w => v.length = 1 && setEq v w) then .error .noSolution
  else checkNoDuplicates rest

/-- The exposed-group part of the body of the `n` loop of
`_reduce_rows_and_cols`. -/
def exposedPart (g : Grid) (view : View) (n : Nat) : Grid × View :=
  let ex := findExposedGroups (viewAssoc view) n
  if ex.isEmpty then (g, view)
  else applyRemove g view (invert ex (view.map (fun e => e.1)))

/-- The hidden-group part of the body of the `n` loop of
`_reduce_rows_and_cols`. -/
def hiddenPart (g : Grid) (view : View) (n : Nat) : Grid × View :=
  let hid := findHiddenGroups (viewAssoc view) n
  if hid.isEmpty then (g, view)
  else
    let gv := applyReplace g view hid
    applyRemove gv.1 gv.2 (invert hid (view.map (fun e => e.1)))

/-- The body of the `n` loop of `_reduce_rows_and_cols`. -/
def lineStep (gv : Grid × View) (n : Nat) : Grid × View :=
  let gv1 := exposedPart gv.1 gv.2 n
  hiddenPart gv1.1 gv1.2 n

/-- The state after the group-size loop of `_reduce_rows_and_cols` for
one slice: build the slice view, then run all group sizes
`1 ≤ n ≤ size / 2`. -/
def lineGroupsResult (size : Nat) (g : Grid) (cells : List Cell) : Grid × View :=
  (List.range' 1 (size / 2)).foldl lineStep (g, cells.map (fun c => (c, getCell g c, true)))

/-- Processing of one slice by `_reduce_rows_and_cols`: run all group
sizes, then check the slice for duplicate singletons. -/
def linePass (size : Nat) (g : Grid) (cells : List Cell) : Except PErr Grid :=
  let gv := lineGroupsResult size g cells
  match checkNoDuplicates (gv.2.map (fun e => e.2.1)) with
  | .error e => .error e
  | .ok _ => .ok gv.1

/-- The slices of one full sweep, in the source's order: row 1, column 1,
row 2, column 2, and so on. -/
def sweepSlices (size : Nat) : List (List Cell) :=
  (List.range' 1 size).flatMap (fun m => [sliceCells size true m, sliceCells size false m])

/-- Sequential processing of a list of slices, stopping at the first
raised exception. -/
def sweepAux (size : Nat) : List (List Cell) → Grid → Except PErr Grid
| [], g => .ok g
| cells :: rest, g =>
  match linePass size g cells with
  | .error e => .error e
  | .ok g' => sweepAux size rest g'

/-- One full sweep of `_reduce_rows_and_cols` over all rows and columns. -/
def sweepLines (size : Nat) (g : Grid) : Except PErr Grid :=
  sweepAux size (sweepSlices size) g

/-- Result of a fuelled loop: a value, a Python exception, or fuel ran
out (the modelled loop did not terminate within the given bound). -/
inductive Res (α : Type)
| ok (a : α)
| err (e : PErr)
| out
deriving Repr, DecidableEq

/-- Model of `_reduce_rows_and_cols`: repeat full sweeps until the
candidates dict is unchanged, with explicit fuel for the `while True`. -/
def reduceRowsColsFuel : Nat → Nat → Grid → Res Grid
| 0, _, _ => .out
| fuel + 1, size, g =>
  match sweepLines size g with
  | .error e => .err e
  | .ok g' => if gridEq g' g then .ok g' else reduceRowsColsFuel fuel size g'

/-- The values a solved grid assigns to the given cells: `next(iter(s))`
of each singleton set. -/
def firstVals (g : Grid) (cells : List Cell) : List Nat :=
  cells.map (fun c => (getCell g c).headD 0)

/-- The cage checks of `KenKenPuzzle._is_solved`: every cage's numbers
produce the cage's result. -/
def cagesOk (p : Puzzle) (g : Grid) : Bool :=
  p.cages.all (fun cage =>
    getsRightResult (firstVals g cage.cells) cage.operation cage.result)

/-- The row/column checks of `KenKenPuzzle._is_solved`: every slice's
values form the set `{1, ..., size}`. -/
def linesOk (size : Nat) (g : Grid) : Bool :=
  [true, false].all (fun mode =>
    (List.range' 1 size).all (fun i =>
      setEq (dedupSort (firstVals g (sliceCells size mode i))) (List.range' 1 size)))

/-- Model of `KenKenPuzzle._is_solved`: `False` unless every candidate set
is a singleton; on an all-singleton grid, raise `NoSolutionError` when a
cage or a line check fails and return `True` otherwise. -/
def isSolved (p : Puzzle) (g : Grid) : Except PErr Bool :=
  if !(g.all (fun cv => cv.2.length = 1)) then .ok false
  else if cagesOk p g && linesOk p.size g then .ok true
  else .error .noSolution

/-- The solution grid saved by `_is_solved`: the value of 1-indexed cell
`(i, j)` is stored at 0-indexed row-major position `[i-1][j-1]`. -/
def extractSolution (size : Nat) (g : Grid) : List (List Nat) :=
  (List.range size).map (fun r => (List.range size).map (fun c => (getCell g (r + 1, c + 1)).headD 0))

/-- Result of `_solve`: a solved candidates dict, a Python exception, or
out of fuel. -/
inductive SolveRes
| solved (g : Grid)
| err (e : PErr)
| out
deriving Repr, DecidableEq

/-- The unsolved cells of `_solve`: the items whose candidate set has more
than one element, in dictionary order. -/
def unsolvedCells (g : Grid) : List (Cell × CSet) := g.filter (fun cv => 1 < cv.2.length)

/-- Python's `min(unsolved, key=lambda kv: len(kv[1]))`: the first entry
of smallest set size, or `None` on an empty list (a `ValueError`). -/
def minBySize : List (Cell × CSet) → Option (Cell × CSet)
| [] => none
| kv :: rest => some (rest.foldl (fun best x => if x.2.length < best.2.length then x else best) kv)

/-- The choice loop of `_solve`: try each value of the chosen cell on a
copy of the grid; adopt the first branch that solves, skip branches that
raise `NoSolutionError`, propagate any other outcome, and raise
`NoSolutionError` when every value is exhausted. -/
def tryChoices (solver : Grid → SolveRes) (g : Grid) (c : Cell) : List Nat → SolveRes
| [] => .err .noSolution
| v :: vs =>
  match solver (replaceUpd g [(c, [v])]) with
  | .solved g' => .solved g'
  | .err .noSolution => tryChoices solver g c vs
  | .err e => .err e
  | .out => .out

/-- Model of `_solve`: deduction to a fixpoint, then recursive search,
with explicit fuel bounding the loop and the recursion depth. -/
def solveFuel : Nat → Puzzle → Grid → SolveRes
| 0, _, _ => .out
| fuel + 1, p, g =>
  match isSolved p g with
  | .error e => .err e
  | .ok true => .solved g
  | .ok false =>
    match reduceRowsColsFuel (fuel + 1) p.size (reduceCages p g) with
    | .out => .out
    | .err e => .err e
    | .ok g2 =>
      if gridEq g2 g then
        match isSolved p g2 with
        | .error e => .err e
        | .ok true => .solved g2
        | .ok false =>
          match minBySize (unsolvedCells g2) with
          | none => .err .valueError
          | some cv => tryChoices (solveFuel fuel p) g2 cv.1 cv.2
      else solveFuel fuel p g2

/-- Model of the propagation portion of `_solve` (the Propagation Driver
of the design): snapshot, reduce all cages, reduce all rows and columns,
stop at a fixpoint, with explicit fuel for the loop. -/
def propagateFuel : Nat → Puzzle → Grid → Res Grid
| 0, _, _ => .out
| fuel + 1, p, g =>
  match reduceRowsColsFuel (fuel + 1) p.size (reduceCages p g) with
  | .out => .out
  | .err e => .err e
  | .ok g2 => if gridEq g2 g then .ok g2 else propagateFuel fuel p g2

/-! ## Basic lemmas about the modelled set operations -/

theorem smem_iff {x : Nat} {s : CSet} : smem x s = true ↔ x ∈ s := by
induction s with
| nil => simp [smem]
| cons y ys ih =>
  simp only [smem, List.contains_cons] at *
  constructor
  · intro h
    rcases Bool.or_eq_true_iff.mp h with h | h
    · exact (beq_iff_eq.mp h) ▸ List.mem_cons_self _ _
    · exact List.mem_cons_of_mem _ (ih.mp h)
  · intro h
    rcases List.mem_cons.mp h with h | h
    · exact Bool.or_eq_true_iff.mpr (Or.inl (beq_iff_eq.mpr h))
    · exact Bool.or_eq_true_iff.mpr (Or.inr (ih.mpr h))

theorem setEq_iff {a b : CSet} : setEq a b = true ↔ (∀ x, x ∈ a ↔ x ∈ b) := by
simp only [setEq, Bool.and_eq_true, List.all_eq_true, smem_iff]
constructor
· rintro ⟨h1, h2⟩ x
  exact ⟨fun hx => h1 x hx, fun hx => h2 x hx⟩
· intro h
  exact ⟨fun x hx => (h x).mp hx, fun x hx => (h x).mpr hx⟩

theorem setEq_refl (a : CSet) : setEq a a = true := setEq_iff.mpr (fun _ => Iff.rfl)

theorem mem_sdiff {x : Nat} {a b : CSet} : x ∈ sdiff a b ↔ x ∈ a ∧ x ∉ b := by
simp only [sdiff, List.mem_filter, Bool.not_eq_true']
constructor
· rintro ⟨h1, h2⟩
  exact ⟨h1, fun hx => by simp [smem_iff.mpr hx] at h2⟩
· rintro ⟨h1, h2⟩
  refine ⟨h1, ?_⟩
  cases hmem : smem x b with
  | false => rfl
  | true => exact absurd (smem_iff.mp hmem) h2

theorem sdiff_subset {x : Nat} {a b : CSet} (h : x ∈ sdiff a b) : x ∈ a := (mem_sdiff.mp h).1

theorem mem_sadd {x y : Nat} {a : CSet} : x ∈ sadd a y ↔ x ∈ a ∨ x = y := by
unfold sadd
split
next hy => exact ⟨Or.inl, fun h => h.elim id (fun hxy => hxy ▸ smem_iff.mp hy)⟩
next hy => simp [List.mem_append]

theorem mem_sunion {x : Nat} {a b : CSet} : x ∈ sunion a b ↔ x ∈ a ∨ x ∈ b := by
simp only [sunion, List.mem_append, List.mem_filter, Bool.not_eq_true']
constructor
· rintro (h | ⟨h, _⟩)
  · exact Or.inl h
  · exact Or.inr h
· rintro (h | h)
  · exact Or.inl h
  · by_cases ha : x ∈ a
    · exact Or.inl ha
    · refine Or.inr ⟨h, ?_⟩
      cases hmem : smem x a with
      | false => rfl
      | true => exact absurd (smem_iff.mp hmem) ha

theorem mem_sinsert {x y : Nat} {l : CSet} : x ∈ sinsert y l ↔ x = y ∨ x ∈ l := by
induction l with
| nil => simp [sinsert]
| cons z zs ih =>
  unfold sinsert
  by_cases h1 : y < z
  · simp [h1]
  · by_cases h2 : y = z
    · subst h2
      rw [if_neg h1, if_pos rfl]
      exact ⟨Or.inr, fun h => h.elim (fun hx => hx ▸ List.mem_cons_self _ _) id⟩
    · simp only [if_neg h1, if_neg h2, List.mem_cons, ih]
      tauto

theorem mem_dedupSort {x : Nat} {l : List Nat} : x ∈ dedupSort l ↔ x ∈ l := by
induction l with
| nil => simp [dedupSort]
| cons y ys ih =>
  simp only [dedupSort, List.foldr_cons] at *
  rw [mem_sinsert, ih, List.mem_cons]

/-! ## Lemmas about association-list lookups and grid updates -/

theorem lookupC_mapVals (f : Cell → CSet → CSet) (g : Grid) (c : Cell) :
    lookupC (mapVals f g) c = (lookupC g c).map (f c) := by
induction g with
| nil => rfl
| cons kv rest ih =>
  obtain ⟨k, v⟩ := kv
  unfold mapVals lookupC
  by_cases h : k = c
  · subst h
    simp
  · simp [h, ih]

theorem mapVals_keys (f : Cell → CSet → CSet) (g : Grid) :
    (mapVals f g).map Prod.fst = g.map Prod.fst := by
induction g with
| nil => rfl
| cons kv rest ih =>
  obtain ⟨k, v⟩ := kv
  simp [mapVals, ih]

theorem lookupC_upsert (m : List (Cell × CSet)) (c c' : Cell) (v : CSet) :
    lookupC (upsert m c v) c' = if c' = c then some v else lookupC m c' := by
induction m with
| nil =>
  simp only [upsert, lookupC]
  by_cases h : c = c'
  · rw [if_pos h, if_pos h.symm]
  · rw [if_neg h, if_neg (fun hh : c' = c => h hh.symm)]
| cons kv rest ih =>
  obtain ⟨k, w⟩ := kv
  by_cases hk : k = c
  · subst hk
    simp only [upsert, if_pos rfl, lookupC]
    by_cases h : k = c'
    · simp [h]
    · have h' : ¬ c' = k := fun hh => h hh.symm
      simp [h, h']
  · simp only [upsert, if_neg hk, lookupC]
    by_cases h : k = c'
    · subst h
      simp [hk]
    · simp [h, ih]

theorem getCell_replaceUpd (g : Grid) (upd : List (Cell × CSet)) (c : Cell) :
    getCell (replaceUpd g upd) c =
      match lookupC g c with
      | none => []
      | some v => (lookupC upd c).getD v := by
unfold getCell lookupD replaceUpd
rw [lookupC_mapVals]
cases lookupC g c <;> rfl

theorem getCell_removeUpd (g : Grid) (upd : List (Cell × CSet)) (c : Cell) :
    getCell (removeUpd g upd) c =
      match lookupC g c with
      | none => []
      | some v => sdiff v (lookupD upd c) := by
unfold getCell lookupD removeUpd
rw [lookupC_mapVals]
cases lookupC g c <;> rfl

theorem replaceUpd_nil (g : Grid) : replaceUpd g [] = g := by
induction g with
| nil => rfl
| cons kv rest ih =>
  obtain ⟨k, v⟩ := kv
  simp [replaceUpd, mapVals, lookupC] at *
  exact ih

/-! ## The entrywise-subset relation between grids -/

/-- Entrywise refinement of grids: same key layout, and every value a
subset of the corresponding old value. -/
def EntrySub (g' g : Grid) : Prop :=
  List.Forall₂ (fun a b => a.1 = b.1 ∧ ∀ x, x ∈ a.2 → x ∈ b.2) g' g

theorem EntrySub.refl (g : Grid) : EntrySub g g := by
induction g with
| nil => exact List.Forall₂.nil
| cons kv rest ih => exact List.Forall₂.cons ⟨rfl, fun _ h => h⟩ ih

theorem EntrySub.trans {g1 g2 g3 : Grid} (h12 : EntrySub g1 g2) (h23 : EntrySub g2 g3) :
    EntrySub g1 g3 := by
induction h12 generalizing g3 with
| nil => cases h23; exact List.Forall₂.nil
| cons h t ih =>
  cases h23 with
  | cons h' t' =>
    exact List.Forall₂.cons ⟨h.1.trans h'.1, fun x hx => h'.2 x (h.2 x hx)⟩ (ih t')

theorem EntrySub.keys {g' g : Grid} (h : EntrySub g' g) :
    g'.map Prod.fst = g.map Prod.fst := by
induction h with
| nil => rfl
| cons h t ih => simp [h.1, ih]

theorem EntrySub.lookupC {g' g : Grid} (h : EntrySub g' g) (c : Cell) :
    ∀ x v', lookupC g' c = some v' → x ∈ v' → ∃ v, lookupC g c = some v ∧ x ∈ v := by
induction h with
| nil => intro x v' h'; simp [KenKenPy.lookupC] at h'
| cons hh t ih =>
  intro x v' hl hx
  rename_i a b l1 l2
  unfold KenKenPy.lookupC at hl ⊢
  by_cases hc : a.1 = c
  · rw [if_pos hc] at hl
    rw [hh.1] at hc
    rw [if_pos hc]
    exact ⟨b.2, rfl, hh.2 x (by injection hl with h'; exact h' ▸ hx)⟩
  · rw [if_neg hc] at hl
    rw [if_neg (hh.1 ▸ hc)]
    exact ih x v' hl hx

theorem EntrySub.getCell {g' g : Grid} (h : EntrySub g' g) (c : Cell) :
    ∀ x, x ∈ KenKenPy.getCell g' c → x ∈ KenKenPy.getCell g c := by
intro x hx
unfold KenKenPy.getCell lookupD at hx ⊢
cases hl : KenKenPy.lookupC g' c with
| none => simp [hl] at hx
| some v' =>
  rw [hl] at hx
  obtain ⟨v, hv, hxv⟩ := h.lookupC c x v' hl hx
  simp [hv]
  exact hxv

theorem removeUpd_sub (g : Grid) (upd : List (Cell × CSet)) : EntrySub (removeUpd g upd) g := by
induction g with
| nil => exact List.Forall₂.nil
| cons kv rest ih =>
  obtain ⟨k, v⟩ := kv
  exact List.Forall₂.cons ⟨rfl, fun x hx => sdiff_subset hx⟩ ih

/-- Duplicate-free key layout of a grid (true of every grid the solver
builds, whose keys are the distinct cells in creation order). -/
def KeysNodup (g : Grid) : Prop := (g.map Prod.fst).Nodup

theorem KeysNodup.getCell_of_mem {g : Grid} (h : KeysNodup g) {c : Cell} {v : CSet}
    (hmem : (c, v) ∈ g) : KenKenPy.getCell g c = v := by
induction g with
| nil => simp at hmem
| cons kv rest ih =>
  obtain ⟨k, w⟩ := kv
  rcases List.mem_cons.mp hmem with hh | hh
  · injection hh with h1 h2
    subst h1; subst h2
    simp [KenKenPy.getCell, lookupD, lookupC]
  · have hk : k ≠ c := by
      intro hkc
      subst hkc
      have : k ∈ rest.map Prod.fst := List.mem_map.mpr ⟨(k, v), hh, rfl⟩
      exact (List.nodup_cons.mp h).1 this
    have hrest : KeysNodup rest := (List.nodup_cons.mp h).2
    simp only [KenKenPy.getCell, lookupD, lookupC, if_neg hk]
    exact ih hrest hh

theorem replaceUpd_sub {g : Grid} {upd : List (Cell × CSet)} (hnd : KeysNodup g)
    (h : ∀ c w, lookupC upd c = some w → ∀ x, x ∈ w → x ∈ getCell g c) :
    EntrySub (replaceUpd g upd) g := by
have main : ∀ (g0 : Grid), (∀ c v, (c, v) ∈ g0 → getCell g c = v) →
    EntrySub (replaceUpd g0 upd) g0 := by
  intro g0
  induction g0 with
  | nil => intro _; exact List.Forall₂.nil
  | cons kv rest ih =>
    intro hg
    obtain ⟨k, v⟩ := kv
    refine List.Forall₂.cons ⟨rfl, ?_⟩ (ih (fun c v hm => hg c v (List.mem_cons_of_mem _ hm)))
    intro x hx
    cases hu : lookupC upd k with
    | none => simpa [hu] using hx
    | some w =>
      simp only [hu, Option.getD_some] at hx
      have := h k w hu x hx
      rwa [hg k v (List.mem_cons_self _ _)] at this
exact main g (fun c v hm => hnd.getCell_of_mem hm)

/-! ## Claim C10: the solved-state check is silent on non-singleton grids -/

/-- C10: for every grid in which some cell's candidate set does not have
exactly one element — including an empty candidate set — `_is_solved`
returns `False` without raising; the raising cage/line verification runs
only on all-singleton grids. -/
theorem claim_C10 (p : Puzzle) (g : Grid) (h : ∃ cv ∈ g, cv.2.length ≠ 1) :
    isSolved p g = .ok false := by
obtain ⟨cv, hmem, hne⟩ := h
have hall : (g.all (fun cv => cv.2.length = 1)) = false := by
  rw [List.all_eq_false]
  exact ⟨cv, hmem, by simpa using hne⟩
unfold isSolved
rw [hall]
rfl

/-- Witness for C10 at a concrete grid containing an empty candidate set. -/
theorem claim_C10_witness :
    isSolved ⟨2, []⟩ [((1, 1), []), ((1, 2), [2])] = .ok false :=
claim_C10 ⟨2, []⟩ [((1, 1), []), ((1, 2), [2])] ⟨((1, 1), []), by decide, by decide⟩

/-! ## Claim C2: a cage with no surviving combinations -/

/-- Counterexample to C2 as stated: for the cage `{(1,1),(1,2)}` with
operation `+` and result 3 on a 2×2 grid whose two cage cells hold `{1}`,
no combination survives the legality filter, yet the Cage Reducer leaves
cell `(1,1)` with its old non-empty candidate set rather than an empty
one. -/
theorem claim_C2_counterexample :
    removeIllegal (getPossibleCombos ⟨[(1, 1), (1, 2)], 3, some .add⟩ 2)
        [((1, 1), [1]), ((1, 2), [1])] = []
    ∧ getCell (reduceCageStep 2 [((1, 1), [1]), ((1, 2), [1])]
        ⟨[(1, 1), (1, 2)], 3, some .add⟩) (1, 1) ≠ [] := by
constructor
· decide
· decide

/-- C2 as amended: when no combination of a cage survives the legality
filter, the Cage Reducer applies no update at all, leaving every cell of
the grid (in particular every cell of the cage) unchanged. -/
theorem claim_C2 (size : Nat) (g : Grid) (cage : Cage)
    (h : removeIllegal (getPossibleCombos cage size) g = []) :
    reduceCageStep size g cage = g := by
unfold reduceCageStep
rw [h]
exact replaceUpd_nil g

/-- Witness for C2 at the concrete no-survivor cage and grid. -/
theorem claim_C2_witness :
    reduceCageStep 2 [((1, 1), [1]), ((1, 2), [1])] ⟨[(1, 1), (1, 2)], 3, some .add⟩ =
      [((1, 1), [1]), ((1, 2), [1])] :=
claim_C2 2 [((1, 1), [1]), ((1, 2), [1])] ⟨[(1, 1), (1, 2)], 3, some .add⟩ (by decide)

/-! ## Claim C1: an emptied candidate set is not signalled as a conflict -/

/-- A validated 4×4 puzzle: a Latin square pinned by singleton cages
except for the cage `{(4,1),(4,2)}` with `+` and result 3, whose values
`{1,2}` collide with the singletons of column 1 and row 4.  Propagation
empties cell `(4,1)`. -/
def emptyCellPuzzle : Puzzle :=
  ⟨4, [⟨[(1, 1)], 1, none⟩, ⟨[(1, 2)], 2, none⟩, ⟨[(1, 3)], 3, none⟩, ⟨[(1, 4)], 4, none⟩,
       ⟨[(2, 1)], 2, none⟩, ⟨[(2, 2)], 3, none⟩, ⟨[(2, 3)], 4, none⟩, ⟨[(2, 4)], 1, none⟩,
       ⟨[(3, 1)], 3, none⟩, ⟨[(3, 2)], 4, none⟩, ⟨[(3, 3)], 1, none⟩, ⟨[(3, 4)], 2, none⟩,
       ⟨[(4, 3)], 2, none⟩, ⟨[(4, 4)], 3, none⟩,
       ⟨[(4, 1), (4, 2)], 3, some .add⟩]⟩

/-- Truth of `_has_conflicts` on the grid inside a driver result. -/
def resHasConflicts : Res Grid → Bool
| .ok g => hasConflicts g
| _ => false

set_option maxRecDepth 200000

/-- C1 is violated by the code: on `emptyCellPuzzle`, propagation from the
initial full grid empties a candidate set (the fixpoint grid satisfies
`_has_conflicts`), yet the solver neither concludes no-solution nor raises
`NoSolutionError`; it crashes with a `ValueError` (`min()` of the empty
`unsolved` sequence), because `_has_conflicts` is never called. -/
theorem claim_C1 :
    resHasConflicts (propagateFuel 20 emptyCellPuzzle (initGrid 4)) = true
    ∧ solveFuel 20 emptyCellPuzzle (initGrid 4) = .err .valueError := by
constructor
· decide
· decide

/-! ## Claim C9: duplicate singletons in a line raise a conflict -/

theorem checkNoDuplicates_error_iff (vals : List CSet) :
    checkNoDuplicates vals = .error .noSolution ↔
      ∃ v w, List.Sublist [v, w] vals ∧ v.length = 1 ∧ setEq v w = true := by
induction vals with
| nil =>
  constructor
  · intro h
    simp [checkNoDuplicates] at h
  · rintro ⟨v, w, hsub, -, -⟩
    have := hsub.length_le
    simp at this
| cons a rest ih =>
  unfold checkNoDuplicates
  by_cases h : rest.any (fun w => a.length = 1 && setEq a w) = true
  · rw [if_pos h]
    constructor
    · intro _
      obtain ⟨w, hw, hcond⟩ := List.any_eq_true.mp h
      obtain ⟨h1, h2⟩ := Bool.and_eq_true_iff.mp hcond
      exact ⟨a, w, List.cons_sublist_cons.mpr (List.singleton_sublist.mpr hw),
        of_decide_eq_true h1, h2⟩
    · intro _
      rfl
  · rw [if_neg h, ih]
    constructor
    · rintro ⟨v, w, hsub, h1, h2⟩
      exact ⟨v, w, hsub.cons a, h1, h2⟩
    · rintro ⟨v, w, hsub, h1, h2⟩
      rcases List.sublist_cons_iff.mp hsub with hsub' | ⟨r, hr, hrsub⟩
      · exact ⟨v, w, hsub', h1, h2⟩
      · injection hr with hv hr'
        subst hv
        subst hr'
        have hw : w ∈ rest := List.singleton_sublist.mp hrsub
        exact absurd (List.any_eq_true.mpr
          ⟨w, hw, Bool.and_eq_true_iff.mpr ⟨decide_eq_true h1, h2⟩⟩) h

/-- A validated 2×2 puzzle whose two singleton cages force the value 1 in
both cells of row 1. -/
def dupPuzzle : Puzzle :=
  ⟨2, [⟨[(1, 1)], 1, none⟩, ⟨[(1, 2)], 1, none⟩, ⟨[(2, 1), (2, 2)], 3, some .add⟩]⟩

/-- C9: after the group-size passes over a line, if two distinct cells of
the slice both carry equal singleton candidate sets, the line pass raises
`NoSolutionError` (rather than crashing or continuing); consequently the
concrete puzzle forcing 1 into both cells of one row reports no
solution. -/
theorem claim_C9 (size : Nat) (g : Grid) (cells : List Cell)
    (h : ∃ v w, List.Sublist [v, w]
          ((lineGroupsResult size g cells).2.map (fun e => e.2.1))
        ∧ v.length = 1 ∧ setEq v w = true) :
    linePass size g cells = .error .noSolution
    ∧ solveFuel 8 dupPuzzle (initGrid 2) = .err .noSolution := by
constructor
· have hdup := (checkNoDuplicates_error_iff
    ((lineGroupsResult size g cells).2.map (fun e => e.2.1))).mpr h
  simp [linePass, hdup]
· decide

/-- Witness for C9 at a concrete slice whose two cells both hold `{1}`. -/
theorem claim_C9_witness :
    linePass 2 [((1, 1), [1]), ((1, 2), [1])] [(1, 1), (1, 2)] = .error .noSolution
    ∧ solveFuel 8 dupPuzzle (initGrid 2) = .err .noSolution :=
claim_C9 2 [((1, 1), [1]), ((1, 2), [1])] [(1, 1), (1, 2)]
  ⟨[1], [1], by decide, by decide, by decide⟩

/-! ## Monotonicity of the cage reducer -/

theorem lookupD_upsert (m : List (Cell × CSet)) (c c' : Cell) (v : CSet) :
    lookupD (upsert m c v) c' = if c' = c then v else lookupD m c' := by
unfold lookupD
rw [lookupC_upsert]
by_cases h : c' = c
· rw [if_pos h, if_pos h]
  rfl
· rw [if_neg h, if_neg h]

theorem mergeAux_mem (combo : CageCombo) :
    ∀ (m : List (Cell × CSet)) (c : Cell) (x : Nat),
      x ∈ lookupD (combo.foldl
          (fun m cv => upsert m cv.1 (sadd (lookupD m cv.1) cv.2)) m) c →
      x ∈ lookupD m c ∨ (c, x) ∈ combo := by
induction combo with
| nil => intro m c x hx; exact Or.inl hx
| cons cv rest ih =>
  intro m c x hx
  simp only [List.foldl_cons] at hx
  rcases ih _ c x hx with hx' | hx'
  · rw [lookupD_upsert] at hx'
    by_cases hc : c = cv.1
    · rw [if_pos hc] at hx'
      rcases mem_sadd.mp hx' with hx'' | rfl
      · exact Or.inl (hc ▸ hx'')
      · subst hc
        exact Or.inr (List.mem_cons_self cv rest)
    · rw [if_neg hc] at hx'
      exact Or.inl hx'
  · exact Or.inr (List.mem_cons_of_mem _ hx')

theorem mergeCombos_mem (combos : List CageCombo) (c : Cell) (x : Nat)
    (hx : x ∈ lookupD (mergeCombos combos) c) :
    ∃ combo ∈ combos, (c, x) ∈ combo := by
unfold mergeCombos at hx
have main : ∀ (cs : List CageCombo) (m : List (Cell × CSet)),
    x ∈ lookupD (cs.foldl (fun merged combo =>
      combo.foldl (fun m cv => upsert m cv.1 (sadd (lookupD m cv.1) cv.2)) merged) m) c →
    x ∈ lookupD m c ∨ ∃ combo ∈ cs, (c, x) ∈ combo := by
  intro cs
  induction cs with
  | nil => intro m h; exact Or.inl h
  | cons combo rest ih =>
    intro m h
    simp only [List.foldl_cons] at h
    rcases ih _ h with h' | ⟨combo', hc', hm'⟩
    · rcases mergeAux_mem combo m c x h' with h'' | h''
      · exact Or.inl h''
      · exact Or.inr ⟨combo, List.mem_cons_self _ _, h''⟩
    · exact Or.inr ⟨combo', List.mem_cons_of_mem _ hc', hm'⟩
rcases main combos [] hx with h | h
· simp [lookupD, lookupC] at h
· exact h

theorem removeIllegal_mem {combos : List CageCombo} {g : Grid} {combo : CageCombo}
    (h : combo ∈ removeIllegal combos g) :
    combo ∈ combos ∧ ∀ cv ∈ combo, cv.2 ∈ getCell g cv.1 := by
rw [removeIllegal, List.mem_filter] at h
refine ⟨h.1, ?_⟩
intro cv hcv
exact smem_iff.mp (List.all_eq_true.mp h.2 cv hcv)

theorem lookupD_of_lookupC {m : List (Cell × CSet)} {c : Cell} {w : CSet}
    (h : lookupC m c = some w) : lookupD m c = w := by
unfold lookupD
rw [h]
rfl

theorem reduceCageStep_sub {size : Nat} {g : Grid} {cage : Cage} (hnd : KeysNodup g) :
    EntrySub (reduceCageStep size g cage) g := by
unfold reduceCageStep
refine replaceUpd_sub hnd ?_
intro c w hw x hx
rw [← lookupD_of_lookupC hw] at hx
obtain ⟨combo, hcombo, hmem⟩ := mergeCombos_mem _ c x hx
obtain ⟨-, hlegal⟩ := removeIllegal_mem hcombo
exact hlegal (c, x) hmem

theorem EntrySub.keysNodup {g' g : Grid} (h : EntrySub g' g) (hnd : KeysNodup g) :
    KeysNodup g' := by
unfold KeysNodup
rw [h.keys]
exact hnd

theorem reduceCages_sub {p : Puzzle} {g : Grid} (hnd : KeysNodup g) :
    EntrySub (reduceCages p g) g := by
unfold reduceCages
have main : ∀ (cages : List Cage) (g0 : Grid), KeysNodup g0 →
    EntrySub (cages.foldl (reduceCageStep p.size) g0) g0 := by
  intro cages
  induction cages with
  | nil => intro g0 _; exact EntrySub.refl g0
  | cons cage rest ih =>
    intro g0 hnd0
    simp only [List.foldl_cons]
    have h1 : EntrySub (reduceCageStep p.size g0 cage) g0 := reduceCageStep_sub hnd0
    exact (ih _ (h1.keysNodup hnd0)).trans h1
exact main p.cages g hnd

/-! ## Monotonicity of the line eliminator -/

/-- Every set viewed through the slice is contained in the corresponding
candidate set of the pass-start grid. -/
def ViewSub (view : View) (g0 : Grid) : Prop :=
  ∀ e ∈ view, ∀ x, x ∈ e.2.1 → x ∈ getCell g0 e.1

theorem replaceUpd_entrySub {gfix : Grid} {upd : List (Cell × CSet)}
    (hupd : ∀ c w, lookupC upd c = some w → ∀ x, x ∈ w → x ∈ getCell gfix c) :
    ∀ {g' g0 : Grid}, EntrySub g' g0 → (∀ c v, (c, v) ∈ g0 → getCell gfix c = v) →
      EntrySub (replaceUpd g' upd) g0 := by
intro g' g0 hsub
induction hsub with
| nil => intro _; exact List.Forall₂.nil
| cons h t ih =>
  rename_i a b l1 l2
  intro hg0
  refine List.Forall₂.cons ⟨h.1, ?_⟩ (ih (fun c v hm => hg0 c v (List.mem_cons_of_mem _ hm)))
  intro x hx
  cases hu : lookupC upd a.1 with
  | none =>
    simp only [replaceUpd, mapVals, hu, Option.getD_none] at hx
    exact h.2 x hx
  | some w =>
    simp only [replaceUpd, mapVals, hu, Option.getD_some] at hx
    have := hupd a.1 w hu x hx
    rw [h.1, hg0 b.1 b.2 (List.mem_cons_self _ _)] at this
    exact this

theorem applyRemove_sub {g' g0 : Grid} {view : View} {del : List (Cell × CSet)}
    (hg : EntrySub g' g0) (hv : ViewSub view g0) :
    EntrySub (applyRemove g' view del).1 g0 ∧ ViewSub (applyRemove g' view del).2 g0 := by
constructor
· exact (removeUpd_sub g' del).trans hg
· intro e he x hx
  simp only [applyRemove, List.mem_map] at he
  obtain ⟨e0, he0, rfl⟩ := he
  by_cases ha : e0.2.2 = true
  · simp only [if_pos ha] at hx ⊢
    exact hv e0 he0 x (sdiff_subset hx)
  · simp only [if_neg ha] at hx ⊢
    exact hv e0 he0 x hx

theorem applyReplace_sub {g' g0 : Grid} {view : View} {upd : List (Cell × CSet)}
    (hg : EntrySub g' g0) (hv : ViewSub view g0) (hnd : KeysNodup g0)
    (hupd : ∀ c w, lookupC upd c = some w → ∀ x, x ∈ w → x ∈ getCell g0 c) :
    EntrySub (applyReplace g' view upd).1 g0 ∧ ViewSub (applyReplace g' view upd).2 g0 := by
constructor
· exact replaceUpd_entrySub hupd hg (fun c v hm => hnd.getCell_of_mem hm)
· intro e he x hx
  simp only [applyReplace, List.mem_map] at he
  obtain ⟨e0, he0, rfl⟩ := he
  by_cases hsome : (lookupC upd e0.1).isSome = true
  · simp only [if_pos hsome] at hx ⊢
    exact hv e0 he0 x hx
  · simp only [if_neg hsome] at hx ⊢
    exact hv e0 he0 x hx

theorem findHiddenGroups_sub {row : List (Cell × CSet)} {n : Nat} {c : Cell} {vs : CSet}
    (h : lookupC (findHiddenGroups row n) c = some vs) :
    ∃ val, (c, val) ∈ row ∧ ∀ x, x ∈ vs → x ∈ val := by
unfold findHiddenGroups at h
by_cases hn : n ≤ ((dedupSort ((row.map Prod.snd).flatten)).filter
    (fun i => (row.map Prod.snd).flatten.count i = n)).length
· rw [if_pos hn] at h
  set P : List (Cell × CSet) → Prop :=
    fun m => ∀ c vs, lookupC m c = some vs → ∃ val, (c, val) ∈ row ∧ ∀ x, x ∈ vs → x ∈ val
    with hP
  have inner : ∀ (combo : CSet) (row' : List (Cell × CSet)) (m : List (Cell × CSet)),
      (∀ cv ∈ row', cv ∈ row) → P m →
      P (row'.foldl (fun h cv =>
        if combo.all (fun x => smem x cv.2) then upsert h cv.1 combo else h) m) := by
    intro combo row'
    induction row' with
    | nil => intro m _ hm; exact hm
    | cons cv rest ih =>
      intro m hrow hm
      simp only [List.foldl_cons]
      refine ih _ (fun cv' h' => hrow cv' (List.mem_cons_of_mem _ h')) ?_
      by_cases hall : combo.all (fun x => smem x cv.2) = true
      · rw [if_pos hall]
        intro c' vs' hl
        rw [lookupC_upsert] at hl
        by_cases hc' : c' = cv.1
        · rw [if_pos hc'] at hl
          injection hl with hl
          subst hl
          subst hc'
          exact ⟨cv.2, hrow cv (List.mem_cons_self _ _), fun x hx =>
            smem_iff.mp (List.all_eq_true.mp hall x hx)⟩
        · rw [if_neg hc'] at hl
          exact hm c' vs' hl
      · rw [if_neg hall]
        exact hm
  have outer : ∀ (combos : List CSet) (m : List (Cell × CSet)), P m →
      P (combos.foldl (fun hidden combo =>
        if alwaysTogether combo (row.map Prod.snd) then
          row.foldl (fun h cv =>
            if combo.all (fun x => smem x cv.2) then upsert h cv.1 combo else h) hidden
        else hidden) m) := by
    intro combos
    induction combos with
    | nil => intro m hm; exact hm
    | cons combo rest ih =>
      intro m hm
      simp only [List.foldl_cons]
      refine ih _ ?_
      by_cases ht : alwaysTogether combo (row.map Prod.snd) = true
      · rw [if_pos ht]
        exact inner combo row m (fun _ h => h) hm
      · rw [if_neg ht]
        exact hm
  have hempty : P [] := by
    intro c vs h
    simp [lookupC] at h
  exact outer _ [] hempty c vs h
· rw [if_neg hn] at h
  simp [lookupC] at h

theorem lineStep_sub {g0 : Grid} {gv : Grid × View} {n : Nat} (hnd : KeysNodup g0)
    (hg : EntrySub gv.1 g0) (hv : ViewSub gv.2 g0) :
    EntrySub (lineStep gv n).1 g0 ∧ ViewSub (lineStep gv n).2 g0 := by
unfold lineStep
have hexp : EntrySub (exposedPart gv.1 gv.2 n).1 g0 ∧ ViewSub (exposedPart gv.1 gv.2 n).2 g0 := by
  unfold exposedPart
  by_cases he : (findExposedGroups (viewAssoc gv.2) n).isEmpty = true
  · rw [if_pos he]
    exact ⟨hg, hv⟩
  · rw [if_neg he]
    exact applyRemove_sub hg hv
unfold hiddenPart
by_cases hh : (findHiddenGroups (viewAssoc (exposedPart gv.1 gv.2 n).2) n).isEmpty = true
· rw [if_pos hh]
  exact hexp
· rw [if_neg hh]
  have hupd : ∀ c w,
      lookupC (findHiddenGroups (viewAssoc (exposedPart gv.1 gv.2 n).2) n) c = some w →
      ∀ x, x ∈ w → x ∈ getCell g0 c := by
    intro c w hw x hx
    obtain ⟨val, hval, hsub⟩ := findHiddenGroups_sub hw
    simp only [viewAssoc, List.mem_map] at hval
    obtain ⟨e0, he0, heq⟩ := hval
    injection heq with h1 h2
    subst h1
    subst h2
    exact hexp.2 e0 he0 x (hsub x hx)
  have hrep := applyReplace_sub hexp.1 hexp.2 hnd hupd
  exact applyRemove_sub hrep.1 hrep.2

theorem lineGroupsResult_sub {size : Nat} {g : Grid} {cells : List Cell}
    (hnd : KeysNodup g) :
    EntrySub (lineGroupsResult size g cells).1 g
    ∧ ViewSub (lineGroupsResult size g cells).2 g := by
unfold lineGroupsResult
have hv0 : ViewSub (cells.map (fun c => (c, getCell g c, true))) g := by
  intro e he x hx
  simp only [List.mem_map] at he
  obtain ⟨c, -, rfl⟩ := he
  exact hx
have main : ∀ (ns : List Nat) (gv : Grid × View), EntrySub gv.1 g → ViewSub gv.2 g →
    EntrySub (ns.foldl lineStep gv).1 g ∧ ViewSub (ns.foldl lineStep gv).2 g := by
  intro ns
  induction ns with
  | nil => intro gv hg hv; exact ⟨hg, hv⟩
  | cons n rest ih =>
    intro gv hg hv
    simp only [List.foldl_cons]
    obtain ⟨hg', hv'⟩ := lineStep_sub hnd hg hv
    exact ih _ hg' hv'
exact main _ _ (EntrySub.refl g) hv0

theorem linePass_sub {size : Nat} {g g' : Grid} {cells : List Cell}
    (hnd : KeysNodup g) (h : linePass size g cells = .ok g') : EntrySub g' g := by
unfold linePass at h
cases hc : checkNoDuplicates ((lineGroupsResult size g cells).2.map (fun e => e.2.1)) with
| error e =>
  simp only [hc] at h
  cases h
| ok u =>
  simp only [hc] at h
  injection h with h
  subst h
  exact (lineGroupsResult_sub hnd).1

theorem sweepAux_sub {size : Nat} :
    ∀ (slices : List (List Cell)) (g g' : Grid), KeysNodup g →
      sweepAux size slices g = .ok g' → EntrySub g' g := by
intro slices
induction slices with
| nil =>
  intro g g' _ h
  injection h with h
  subst h
  exact EntrySub.refl _
| cons cells rest ih =>
  intro g g' hnd h
  unfold sweepAux at h
  cases hl : linePass size g cells with
  | error e =>
    rw [hl] at h
    cases h
  | ok gm =>
    rw [hl] at h
    have h1 : EntrySub gm g := linePass_sub hnd hl
    exact (ih gm g' (h1.keysNodup hnd) h).trans h1

theorem sweepLines_sub {size : Nat} {g g' : Grid} (hnd : KeysNodup g)
    (h : sweepLines size g = .ok g') : EntrySub g' g :=
sweepAux_sub _ g g' hnd h

/-! ## Claim C6: candidate sets never grow -/

/-- C6: after a Cage Reducer pass, after a single Line Eliminator pass
over one slice, and after a full sweep of the Line Eliminator, every
cell's new candidate set is contained in its previous one. -/
theorem claim_C6 (p : Puzzle) (g : Grid) (hnd : KeysNodup g) :
    (∀ c x, x ∈ getCell (reduceCages p g) c → x ∈ getCell g c)
    ∧ (∀ size cells g', linePass size g cells = .ok g' →
        ∀ c x, x ∈ getCell g' c → x ∈ getCell g c)
    ∧ (∀ size g', sweepLines size g = .ok g' →
        ∀ c x, x ∈ getCell g' c → x ∈ getCell g c) := by
refine ⟨?_, ?_, ?_⟩
· intro c x hx
  exact (reduceCages_sub hnd).getCell c x hx
· intro size cells g' h c x hx
  exact (linePass_sub hnd h).getCell c x hx
· intro size g' h c x hx
  exact (sweepLines_sub hnd h).getCell c x hx

/-- Witness for C6 on a concrete 2×2 puzzle and grid. -/
theorem claim_C6_witness :
    (2 ∈ getCell (reduceCages ⟨2, [⟨[(1, 1), (1, 2), (2, 1), (2, 2)], 6, some .add⟩]⟩
        (initGrid 2)) (1, 1) → 2 ∈ getCell (initGrid 2) (1, 1))
    ∧ (∀ g', sweepLines 2 (initGrid 2) = .ok g' →
        ∀ c x, x ∈ getCell g' c → x ∈ getCell (initGrid 2) c) :=
⟨(claim_C6 ⟨2, [⟨[(1, 1), (1, 2), (2, 1), (2, 2)], 6, some .add⟩]⟩ (initGrid 2)
    (by unfold KeysNodup; decide)).1 (1, 1) 2,
 (claim_C6 ⟨2, [⟨[(1, 1), (1, 2), (2, 1), (2, 2)], 6, some .add⟩]⟩ (initGrid 2)
    (by unfold KeysNodup; decide)).2.2 2⟩

theorem setEq_toFinset {a b : CSet} : setEq a b = true ↔ a.toFinset = b.toFinset := by
rw [setEq_iff, Finset.ext_iff]
simp [List.mem_toFinset]

theorem dedupSort_toFinset (l : List Nat) : (dedupSort l).toFinset = l.toFinset := by
ext x
simp [List.mem_toFinset, mem_dedupSort]

/-! ## Claim C7: the propagation driver terminates -/

/-- The total candidate count of a grid, the termination measure of the
propagation loops. -/
def gridMeasure (g : Grid) : Nat := (g.map (fun cv => cv.2.toFinset.card)).sum

theorem EntrySub.measure_le {g' g : Grid} (h : EntrySub g' g) :
    gridMeasure g' ≤ gridMeasure g := by
induction h with
| nil => exact Nat.le_refl _
| cons hh t ih =>
  rename_i a b l1 l2
  unfold gridMeasure at ih ⊢
  simp only [List.map_cons, List.sum_cons]
  refine Nat.add_le_add ?_ ih
  refine Finset.card_le_card ?_
  intro x hx
  exact List.mem_toFinset.mpr (hh.2 x (List.mem_toFinset.mp hx))

theorem EntrySub.measure_lt {g' g : Grid} (h : EntrySub g' g)
    (hne : gridEq g' g = false) : gridMeasure g' < gridMeasure g := by
induction h with
| nil => cases hne
| cons hh t ih =>
  rename_i a b l1 l2
  obtain ⟨c, v⟩ := a
  obtain ⟨c', v'⟩ := b
  have hc : c = c' := hh.1
  subst hc
  simp only [gridEq, decide_eq_true_eq, Bool.and_eq_false_iff] at hne
  have hsub : v.toFinset ⊆ v'.toFinset := by
    intro x hx
    exact List.mem_toFinset.mpr (hh.2 x (List.mem_toFinset.mp hx))
  have hcard_le : v.toFinset.card ≤ v'.toFinset.card := Finset.card_le_card hsub
  have htail_le : gridMeasure l1 ≤ gridMeasure l2 := EntrySub.measure_le t
  unfold gridMeasure at ih htail_le ⊢
  simp only [List.map_cons, List.sum_cons]
  rcases hne with hne | hne
  · rcases hne with hne | hne
    · simp at hne
    · have hne' : v.toFinset ≠ v'.toFinset := by
        intro heq
        rw [← setEq_toFinset] at heq
        rw [heq] at hne
        cases hne
      have hlt : v.toFinset.card < v'.toFinset.card :=
        Finset.card_lt_card (ssubset_of_subset_of_ne hsub hne')
      exact Nat.add_lt_add_of_lt_of_le hlt htail_le
  · exact Nat.add_lt_add_of_le_of_lt hcard_le (ih hne)

theorem reduceRowsColsFuel_sub :
    ∀ (fuel : Nat) {size : Nat} {g g' : Grid}, KeysNodup g →
      reduceRowsColsFuel fuel size g = .ok g' → EntrySub g' g := by
intro fuel
induction fuel with
| zero =>
  intro size g g' _ h
  cases h
| succ fuel ih =>
  intro size g g' hnd h
  unfold reduceRowsColsFuel at h
  split at h
  next e heq => cases h
  next gm heq =>
    have hsub : EntrySub gm g := sweepLines_sub hnd heq
    split at h
    next he =>
      injection h with h
      subst h
      exact hsub
    next he => exact (ih (hsub.keysNodup hnd) h).trans hsub

theorem reduceRowsColsFuel_enough :
    ∀ (fuel : Nat) {size : Nat} {g : Grid}, KeysNodup g → gridMeasure g + 1 ≤ fuel →
      reduceRowsColsFuel fuel size g ≠ .out := by
intro fuel
induction fuel with
| zero =>
  intro size g _ hf
  omega
| succ fuel ih =>
  intro size g hnd hf
  unfold reduceRowsColsFuel
  split
  next e heq =>
    intro hcontra
    cases hcontra
  next gm heq =>
    have hsub : EntrySub gm g := sweepLines_sub hnd heq
    split
    next he =>
      intro hcontra
      cases hcontra
    next he =>
      have hlt : gridMeasure gm < gridMeasure g :=
        hsub.measure_lt (Bool.not_eq_true _ ▸ he : gridEq gm g = false)
      exact ih (hsub.keysNodup hnd) (by omega)

theorem propagateFuel_enough :
    ∀ (fuel : Nat) (p : Puzzle) {g : Grid}, KeysNodup g → gridMeasure g + 1 ≤ fuel →
      propagateFuel fuel p g ≠ .out := by
intro fuel
induction fuel with
| zero =>
  intro p g _ hf
  omega
| succ fuel ih =>
  intro p g hnd hf
  unfold propagateFuel
  have hnd1 : KeysNodup (reduceCages p g) := (reduceCages_sub hnd).keysNodup hnd
  have hm1 : gridMeasure (reduceCages p g) ≤ gridMeasure g :=
    (reduceCages_sub hnd).measure_le
  split
  next heq => exact absurd heq (reduceRowsColsFuel_enough (fuel + 1) hnd1 (by omega))
  next e heq =>
    intro hcontra
    cases hcontra
  next g2 heq =>
    split
    next he =>
      intro hcontra
      cases hcontra
    next he =>
      have hsub2 : EntrySub g2 g :=
        (reduceRowsColsFuel_sub (fuel + 1) hnd1 heq).trans (reduceCages_sub hnd)
      have hlt : gridMeasure g2 < gridMeasure g :=
        hsub2.measure_lt (Bool.not_eq_true _ ▸ he : gridEq g2 g = false)
      exact ih p (hsub2.keysNodup hnd) (by omega)

/-- C7: the Propagation Driver terminates — the fuel `gridMeasure g + 1`
is never exhausted — and each full sweep either leaves the candidates dict
unchanged (ending the loop) or strictly shrinks the total candidate
count. -/
theorem claim_C7 (p : Puzzle) (g : Grid) (hnd : KeysNodup g) :
    propagateFuel (gridMeasure g + 1) p g ≠ .out
    ∧ (∀ g', sweepLines p.size g = .ok g' →
        gridEq g' g = true ∨ gridMeasure g' < gridMeasure g) := by
refine ⟨propagateFuel_enough _ p hnd (Nat.le_refl _), ?_⟩
intro g' h
by_cases he : gridEq g' g = true
· exact Or.inl he
· exact Or.inr ((sweepLines_sub hnd h).measure_lt (Bool.not_eq_true _ ▸ he))

/-- Witness for C7 on the initial 2×2 grid. -/
theorem claim_C7_witness :
    propagateFuel
        (gridMeasure (initGrid 2) + 1)
        ⟨2, [⟨[(1, 1), (1, 2), (2, 1), (2, 2)], 6, some .add⟩]⟩ (initGrid 2) ≠ .out
    ∧ (gridEq (initGrid 2) (initGrid 2) = true
        ∨ gridMeasure (initGrid 2) < gridMeasure (initGrid 2)) :=
⟨(claim_C7 ⟨2, [⟨[(1, 1), (1, 2), (2, 1), (2, 2)], 6, some .add⟩]⟩ (initGrid 2)
    (by unfold KeysNodup; decide)).1,
 (claim_C7 ⟨2, [⟨[(1, 1), (1, 2), (2, 1), (2, 2)], 6, some .add⟩]⟩ (initGrid 2)
    (by unfold KeysNodup; decide)).2 (initGrid 2) rfl⟩

/-! ## Helper lemmas for the hidden-group analysis -/

theorem foldl_filter {α β : Type} (pred : α → Bool) (act : β → α → β) :
    ∀ (l : List α) (init : β),
      l.foldl (fun b a => if pred a then act b a else b) init =
        (l.filter pred).foldl act init := by
intro l
induction l with
| nil => intro init; rfl
| cons a rest ih =>
  intro init
  simp only [List.foldl_cons, List.filter_cons]
  cases ha : pred a with
  | true =>
    simp only [ha, if_pos rfl, List.foldl_cons]
    exact ih (act init a)
  | false =>
    simp only [ha, Bool.false_eq_true, if_false]
    exact ih init

theorem lookupC_append (m1 m2 : List (Cell × CSet)) (c : Cell) :
    lookupC (m1 ++ m2) c =
      match lookupC m1 c with
      | some v => some v
      | none => lookupC m2 c := by
induction m1 with
| nil => rfl
| cons kv rest ih =>
  obtain ⟨k, v⟩ := kv
  by_cases hk : k = c
  · simp [lookupC, hk]
  · simp only [List.cons_append, lookupC, if_neg hk]
    exact ih

theorem upsert_of_lookup_none {m : List (Cell × CSet)} {c : Cell} (v : CSet)
    (h : lookupC m c = none) : upsert m c v = m ++ [(c, v)] := by
induction m with
| nil => rfl
| cons kv rest ih =>
  obtain ⟨k, w⟩ := kv
  unfold lookupC at h
  by_cases hk : k = c
  · rw [if_pos hk] at h
    cases h
  · rw [if_neg hk] at h
    simp only [upsert, if_neg hk, List.cons_append]
    rw [ih h]

theorem innerFold_eq {vs : CSet} :
    ∀ (row m : List (Cell × CSet)),
      (∀ cv ∈ row, lookupC m cv.1 = none) → (row.map Prod.fst).Nodup →
      row.foldl (fun h cv =>
          if vs.all (fun x => smem x cv.2) then upsert h cv.1 vs else h) m =
        m ++ (row.filter (fun cv => vs.all (fun x => smem x cv.2))).map (fun cv => (cv.1, vs)) := by
intro row
induction row with
| nil => intro m _ _; simp
| cons cv rest ih =>
  intro m hnone hnd
  have hndrest : (rest.map Prod.fst).Nodup := (List.nodup_cons.mp hnd).2
  have hcvrest : cv.1 ∉ rest.map Prod.fst := (List.nodup_cons.mp hnd).1
  simp only [List.foldl_cons, List.filter_cons]
  by_cases hp : vs.all (fun x => smem x cv.2) = true
  · rw [if_pos hp, upsert_of_lookup_none vs (hnone cv (List.mem_cons_self _ _))]
    rw [ih (m ++ [(cv.1, vs)]) ?_ hndrest]
    · simp [hp]
    · intro cv' hcv'
      rw [lookupC_append]
      rw [hnone cv' (List.mem_cons_of_mem _ hcv')]
      have hne : cv.1 ≠ cv'.1 := by
        intro heq
        exact hcvrest (heq ▸ List.mem_map.mpr ⟨cv', hcv', rfl⟩)
      simp [lookupC, fun h : cv.1 = cv'.1 => hne h]
  · rw [if_neg hp]
    rw [ih m (fun cv' hcv' => hnone cv' (List.mem_cons_of_mem _ hcv')) hndrest]
    simp [hp]

theorem lookupC_map_self {f : Cell → CSet} :
    ∀ {cells : List Cell} {c : Cell}, c ∈ cells →
      lookupC (cells.map (fun c => (c, f c))) c = some (f c) := by
intro cells
induction cells with
| nil => intro c hc; cases hc
| cons k rest ih =>
  intro c hc
  by_cases hk : k = c
  · subst hk
    simp [lookupC]
  · rcases List.mem_cons.mp hc with rfl | hc'
    · exact absurd rfl hk
    · simp only [List.map_cons, lookupC, if_neg hk]
      exact ih hc'

theorem lookupC_isSome_mem {m : List (Cell × CSet)} {c : Cell} {w : CSet}
    (h : lookupC m c = some w) : (c, w) ∈ m := by
induction m with
| nil => cases h
| cons kv rest ih =>
  obtain ⟨k, v⟩ := kv
  unfold lookupC at h
  by_cases hk : k = c
  · rw [if_pos hk] at h
    injection h with h
    subst h
    subst hk
    exact List.mem_cons_self _ _
  · rw [if_neg hk] at h
    exact List.mem_cons_of_mem _ (ih h)

theorem mapConst_eq_mapVals (vs : CSet) :
    ∀ (l : List (Cell × CSet)), l.map (fun cv => (cv.1, vs)) = mapVals (fun _ _ => vs) l := by
intro l
induction l with
| nil => rfl
| cons kv rest ih => simp [mapVals, ih]

theorem invertTot_mem {c : Cell} {x : Nat} :
    ∀ (upd : List (Cell × CSet)) (acc : CSet),
      x ∈ upd.foldl (fun acc kv => if kv.1 = c then acc else sunion acc kv.2) acc ↔
        x ∈ acc ∨ ∃ kv ∈ upd, kv.1 ≠ c ∧ x ∈ kv.2 := by
intro upd
induction upd with
| nil => intro acc; simp
| cons kv rest ih =>
  intro acc
  simp only [List.foldl_cons]
  by_cases hk : kv.1 = c
  · rw [if_pos hk, ih]
    constructor
    · rintro (h | ⟨kv', h1, h2, h3⟩)
      · exact Or.inl h
      · exact Or.inr ⟨kv', List.mem_cons_of_mem _ h1, h2, h3⟩
    · rintro (h | ⟨kv', h1, h2, h3⟩)
      · exact Or.inl h
      · rcases List.mem_cons.mp h1 with rfl | h1'
        · exact absurd hk h2
        · exact Or.inr ⟨kv', h1', h2, h3⟩
  · rw [if_neg hk, ih]
    constructor
    · rintro (h | ⟨kv', h1, h2, h3⟩)
      · rcases mem_sunion.mp h with h' | h'
        · exact Or.inl h'
        · exact Or.inr ⟨kv, List.mem_cons_self _ _, hk, h'⟩
      · exact Or.inr ⟨kv', List.mem_cons_of_mem _ h1, h2, h3⟩
    · rintro (h | ⟨kv', h1, h2, h3⟩)
      · exact Or.inl (mem_sunion.mpr (Or.inl h))
      · rcases List.mem_cons.mp h1 with rfl | h1'
        · exact Or.inl (mem_sunion.mpr (Or.inr h3))
        · exact Or.inr ⟨kv', h1', h2, h3⟩

theorem mem_combosList {α : Type} :
    ∀ (l : List α) (n : Nat) (c : List α),
      c ∈ combosList n l → c.length = n ∧ c.Sublist l := by
intro l
induction l with
| nil =>
  intro n c hc
  cases n with
  | zero =>
    rw [List.mem_singleton.mp hc]
    exact ⟨rfl, List.Sublist.refl _⟩
  | succ n => cases hc
| cons x xs ih =>
  intro n c hc
  cases n with
  | zero =>
    rw [List.mem_singleton.mp hc]
    exact ⟨rfl, List.nil_sublist _⟩
  | succ n =>
    rcases List.mem_append.mp hc with hc' | hc'
    · obtain ⟨c', hc'', rfl⟩ := List.mem_map.mp hc'
      obtain ⟨hlen, hsub⟩ := ih n c' hc''
      exact ⟨by simp [hlen], List.Sublist.cons₂ x hsub⟩
    · obtain ⟨hlen, hsub⟩ := ih (n + 1) c hc'
      exact ⟨hlen, hsub.cons x⟩

theorem sum_indicator {α : Type} (P : α → Bool) :
    ∀ (l : List α), (l.map (fun a => if P a then 1 else 0)).sum = (l.filter P).length := by
intro l
induction l with
| nil => rfl
| cons a rest ih =>
  simp only [List.map_cons, List.sum_cons, List.filter_cons]
  cases ha : P a with
  | true => simp [ha, ih, Nat.add_comm]
  | false => simp [ha, ih]

theorem lookupC_of_mem {row : List (Cell × CSet)} (hnd : (row.map Prod.fst).Nodup)
    {cv : Cell × CSet} (h : cv ∈ row) : lookupC row cv.1 = some cv.2 := by
induction row with
| nil => cases h
| cons kv rest ih =>
  obtain ⟨hk, hrest⟩ := List.nodup_cons.mp hnd
  rcases List.mem_cons.mp h with rfl | h'
  · simp [lookupC]
  · have hne : kv.1 ≠ cv.1 := by
      intro heq
      exact hk (heq ▸ List.mem_map.mpr ⟨cv, h', rfl⟩)
    simp only [lookupC, if_neg hne]
    exact ih hrest h'

theorem mem_key_unique {row : List (Cell × CSet)} (hnd : (row.map Prod.fst).Nodup)
    {cv cv' : Cell × CSet} (h : cv ∈ row) (h' : cv' ∈ row) (hk : cv.1 = cv'.1) : cv = cv' := by
have h1 := lookupC_of_mem hnd h
have h2 := lookupC_of_mem hnd h'
rw [hk, h2] at h1
exact Prod.ext hk (Option.some.inj h1).symm

theorem viewAssoc_fresh (row : List (Cell × CSet)) :
    viewAssoc (row.map (fun cv => (cv.1, cv.2, true))) = row := by
unfold viewAssoc
rw [List.map_map]
have : ((fun (e : Cell × CSet × Bool) => (e.1, e.2.1)) ∘
    (fun (cv : Cell × CSet) => (cv.1, cv.2, true))) = fun cv => cv := by
  funext cv
  rfl
rw [this]
exact List.map_id row

/-! ## Claim C8: the hidden-group step -/

/-- The slice used to refute C8 as stated: the values 1 and 2 are jointly
confined to the two cells `(1,1)` and `(1,2)` (a hidden pair in the
spec's sense), but 2 occurs only once, so the code's
exactly-`k`-occurrences test rejects the pair. -/
def hiddenRow : List (Cell × CSet) :=
  [((1, 1), [1, 2]), ((1, 2), [1, 3]), ((1, 3), [3, 4]), ((1, 4), [3, 4])]

/-- Counterexample to C8 as stated: in `hiddenRow` the two values
`{1, 2}` appear in exactly two cells of the line, so the claim requires
the hidden-group step at `k = 2` to restrict cell `(1,2)` to
`{1,3} ∩ {1,2} = {1}`; the code finds no hidden group at all and leaves
`(1,2)` at `{1,3}`. -/
theorem claim_C8_counterexample :
    (hiddenRow.filter (fun cv => ([1, 2] : CSet).any (fun x => smem x cv.2))).length = 2
    ∧ findHiddenGroups hiddenRow 2 = []
    ∧ getCell (hiddenPart hiddenRow (hiddenRow.map (fun cv => (cv.1, cv.2, true))) 2).1
        (1, 2) = [1, 3]
    ∧ ([1, 3] : CSet).filter (fun x => smem x [1, 2]) = [1]
    ∧ ([1, 3] : CSet) ≠ [1] := by
refine ⟨by decide, by decide, by decide, by decide, by decide⟩

theorem getCell_removeUpd_some {g : Grid} {upd : List (Cell × CSet)} {c : Cell} {v : CSet}
    (h : lookupC g c = some v) :
    getCell (removeUpd g upd) c = sdiff v (lookupD upd c) := by
rw [getCell_removeUpd, h]

theorem lookupC_replaceUpd_some {g : Grid} {upd : List (Cell × CSet)} {c : Cell} {v : CSet}
    (h : lookupC g c = some v) :
    lookupC (replaceUpd g upd) c = some ((lookupC upd c).getD v) := by
unfold replaceUpd
rw [lookupC_mapVals, h]
rfl

/-- C8 as amended: the hidden-group step finds k values that each occur
exactly k times among the line's candidate sets and always occur together
(each cell contains all k of them or none); such values are confined to
exactly k cells.  When a unique such k-value group qualifies for the given
group size, the step maps each of the k containing cells to exactly those
k values (their intersection with the k values, as each containing cell
holds all of them) and removes the k values from every other cell of the
line. -/
theorem claim_C8 (row : List (Cell × CSet)) (n : Nat) (vs : CSet)
    (hkeys : (row.map Prod.fst).Nodup)
    (hviews : ∀ cv ∈ row, cv.2.Nodup)
    (hn : 0 < n)
    (hmem : vs ∈ combosList n ((dedupSort ((row.map Prod.snd).flatten)).filter
        (fun i => ((row.map Prod.snd).flatten).count i = n)))
    (huniq : (combosList n ((dedupSort ((row.map Prod.snd).flatten)).filter
        (fun i => ((row.map Prod.snd).flatten).count i = n))).filter
        (fun combo => alwaysTogether combo (row.map Prod.snd)) = [vs]) :
    (row.filter (fun cv => vs.all (fun x => smem x cv.2))).length = n
    ∧ (∀ cv ∈ row, vs.any (fun x => smem x cv.2) = vs.all (fun x => smem x cv.2))
    ∧ findHiddenGroups row n =
        (row.filter (fun cv => vs.all (fun x => smem x cv.2))).map (fun cv => (cv.1, vs))
    ∧ (∀ cv ∈ row,
        (vs.all (fun x => smem x cv.2) = true →
          getCell (hiddenPart row (row.map (fun cv => (cv.1, cv.2, true))) n).1 cv.1 = vs
          ∧ setEq vs (cv.2.filter (fun x => smem x vs)) = true)
        ∧ (vs.all (fun x => smem x cv.2) = false →
          ∀ x, x ∈ getCell (hiddenPart row (row.map (fun cv => (cv.1, cv.2, true))) n).1 cv.1 ↔
            x ∈ cv.2 ∧ x ∉ vs)) := by
obtain ⟨hvslen, hvssub⟩ := mem_combosList _ n vs hmem
have htog : alwaysTogether vs (row.map Prod.snd) = true := by
  have hvsin : vs ∈ (combosList n ((dedupSort ((row.map Prod.snd).flatten)).filter
      (fun i => ((row.map Prod.snd).flatten).count i = n))).filter
      (fun combo => alwaysTogether combo (row.map Prod.snd)) := by
    rw [huniq]
    exact List.mem_singleton.mpr rfl
  exact (List.mem_filter.mp hvsin).2
have hvsne : vs ≠ [] := by
  intro h
  rw [h] at hvslen
  simp at hvslen
  omega
obtain ⟨x₀, hx₀⟩ := List.exists_mem_of_ne_nil vs hvsne
have hx₀A := hvssub.subset hx₀
have hcount : ((row.map Prod.snd).flatten).count x₀ = n :=
  of_decide_eq_true (List.mem_filter.mp hx₀A).2
have hpt : ∀ cv ∈ row,
    smem x₀ cv.2 = vs.all (fun x => smem x cv.2)
    ∧ vs.any (fun x => smem x cv.2) = vs.all (fun x => smem x cv.2) := by
  intro cv hcv
  have h := List.all_eq_true.mp htog cv.2 (List.mem_map.mpr ⟨cv, hcv, rfl⟩)
  rcases Bool.or_eq_true_iff.mp h with hin | hout
  · refine ⟨?_, ?_⟩
    · rw [hin, List.all_eq_true.mp hin x₀ hx₀]
    · rw [hin]
      exact List.any_eq_true.mpr ⟨x₀, hx₀, List.all_eq_true.mp hin x₀ hx₀⟩
  · have hx₀out : smem x₀ cv.2 = false := by
      have := List.all_eq_true.mp hout x₀ hx₀
      simpa using this
    have hallfalse : vs.all (fun x => smem x cv.2) = false := by
      cases hval : vs.all (fun x => smem x cv.2) with
      | false => rfl
      | true => exact absurd (List.all_eq_true.mp hval x₀ hx₀) (by simp [hx₀out])
    have hanyfalse : vs.any (fun x => smem x cv.2) = false := by
      cases hval : vs.any (fun x => smem x cv.2) with
      | false => rfl
      | true =>
        obtain ⟨x, hx, hsm⟩ := List.any_eq_true.mp hval
        have := List.all_eq_true.mp hout x hx
        simp [hsm] at this
    exact ⟨by rw [hx₀out, hallfalse], by rw [hanyfalse, hallfalse]⟩
have hmapind : (row.map Prod.snd).map (List.count x₀) =
    row.map (fun cv => if vs.all (fun x => smem x cv.2) then 1 else 0) := by
  rw [List.map_map]
  refine List.map_congr_left ?_
  intro cv hcv
  obtain ⟨h1, -⟩ := hpt cv hcv
  cases hmemx : smem x₀ cv.2 with
  | true =>
    rw [← h1, hmemx, if_pos rfl]
    exact List.count_eq_one_of_mem (hviews cv hcv) (smem_iff.mp hmemx)
  | false =>
    rw [← h1, hmemx]
    simp only [Bool.false_eq_true, if_false]
    refine List.count_eq_zero.mpr ?_
    intro hx
    rw [smem_iff.mpr hx] at hmemx
    cases hmemx
have ha : (row.filter (fun cv => vs.all (fun x => smem x cv.2))).length = n := by
  rw [← sum_indicator, ← hmapind, ← List.count_flatten, hcount]
have hAlen : n ≤ ((dedupSort ((row.map Prod.snd).flatten)).filter
    (fun i => ((row.map Prod.snd).flatten).count i = n)).length := by
  have := hvssub.length_le
  omega
have hfind : findHiddenGroups row n =
    (row.filter (fun cv => vs.all (fun x => smem x cv.2))).map (fun cv => (cv.1, vs)) := by
  simp only [findHiddenGroups]
  rw [if_pos hAlen, foldl_filter, huniq]
  simp only [List.foldl_cons, List.foldl_nil]
  rw [innerFold_eq row [] (fun cv _ => rfl) hkeys]
  simp
have hndF : ((row.filter (fun cv => vs.all (fun x => smem x cv.2))).map Prod.fst).Nodup :=
  List.Nodup.sublist (List.Sublist.map _ (List.filter_sublist row)) hkeys
have hFne : row.filter (fun cv => vs.all (fun x => smem x cv.2)) ≠ [] := by
  intro h
  rw [h] at ha
  simp at ha
  omega
have hhidne : ((row.filter (fun cv => vs.all (fun x => smem x cv.2))).map
    (fun cv => (cv.1, vs))).isEmpty = false := by
  cases hFv : row.filter (fun cv => vs.all (fun x => smem x cv.2)) with
  | nil => exact absurd hFv hFne
  | cons a l => rfl
have hres : (hiddenPart row (row.map (fun cv => (cv.1, cv.2, true))) n).1 =
    removeUpd (replaceUpd row ((row.filter (fun cv => vs.all (fun x => smem x cv.2))).map
        (fun cv => (cv.1, vs))))
      (invert ((row.filter (fun cv => vs.all (fun x => smem x cv.2))).map
        (fun cv => (cv.1, vs))) (row.map Prod.fst)) := by
  have hcells : (row.map (fun cv => (cv.1, cv.2, true))).map
      (fun (e : Cell × CSet × Bool) => e.1) = row.map Prod.fst := by
    rw [List.map_map]
    exact List.map_congr_left (fun cv _ => rfl)
  simp only [hiddenPart, viewAssoc_fresh, hfind, hcells]
  rw [if_neg (by simp [hhidne])]
  rfl
refine ⟨ha, fun cv hcv => (hpt cv hcv).2, hfind, ?_⟩
intro cv hcv
have hlookrow : lookupC row cv.1 = some cv.2 := lookupC_of_mem hkeys hcv
have hhidlook : lookupC ((row.filter (fun cv => vs.all (fun x => smem x cv.2))).map
    (fun cv => (cv.1, vs))) cv.1 =
    (lookupC (row.filter (fun cv => vs.all (fun x => smem x cv.2))) cv.1).map
      (fun _ => vs) := by
  rw [mapConst_eq_mapVals, lookupC_mapVals]
have hkeyne : ∀ kv ∈ (row.filter (fun cv => vs.all (fun x => smem x cv.2))).map
    (fun cv => (cv.1, vs)), kv.2 = vs
    ∧ (vs.all (fun x => smem x cv.2) = false → kv.1 ≠ cv.1) := by
  intro kv hkv
  obtain ⟨cv', hcv', rfl⟩ := List.mem_map.mp hkv
  refine ⟨rfl, ?_⟩
  intro hpredf heq
  have hcv'row : cv' ∈ row := List.mem_of_mem_filter hcv'
  have : cv' = cv := mem_key_unique hkeys hcv'row hcv heq
  subst this
  rw [(List.mem_filter.mp hcv').2] at hpredf
  cases hpredf
have hdel : lookupD (invert ((row.filter (fun cv => vs.all (fun x => smem x cv.2))).map
    (fun cv => (cv.1, vs))) (row.map Prod.fst)) cv.1 =
    invertVal ((row.filter (fun cv => vs.all (fun x => smem x cv.2))).map
      (fun cv => (cv.1, vs))) cv.1 := by
  unfold lookupD invert
  rw [lookupC_map_self (List.mem_map.mpr ⟨cv, hcv, rfl⟩)]
  rfl
constructor
· intro hpred
  have hFmem : cv ∈ row.filter (fun cv => vs.all (fun x => smem x cv.2)) :=
    List.mem_filter.mpr ⟨hcv, hpred⟩
  have hFlook : lookupC (row.filter (fun cv => vs.all (fun x => smem x cv.2))) cv.1 =
      some cv.2 := lookupC_of_mem hndF hFmem
  have hhidsome : lookupC ((row.filter (fun cv => vs.all (fun x => smem x cv.2))).map
      (fun cv => (cv.1, vs))) cv.1 = some vs := by
    rw [hhidlook, hFlook]
    rfl
  have hrepl : lookupC (replaceUpd row ((row.filter (fun cv => vs.all (fun x => smem x cv.2))).map
      (fun cv => (cv.1, vs)))) cv.1 = some vs := by
    rw [lookupC_replaceUpd_some hlookrow, hhidsome]
    rfl
  have hdelval : invertVal ((row.filter (fun cv => vs.all (fun x => smem x cv.2))).map
      (fun cv => (cv.1, vs))) cv.1 =
      sdiff (((row.filter (fun cv => vs.all (fun x => smem x cv.2))).map
        (fun cv => (cv.1, vs))).foldl
          (fun acc kv => if kv.1 = cv.1 then acc else sunion acc kv.2) []) vs := by
    unfold invertVal lookupD
    rw [hhidsome]
    simp
  refine ⟨?_, ?_⟩
  · rw [hres, getCell_removeUpd_some hrepl, hdel, hdelval]
    unfold sdiff
    refine List.filter_eq_self.mpr ?_
    intro x hx
    cases hsm : smem x (List.filter (fun x => !smem x vs) _) with
    | false => rfl
    | true =>
      have := smem_iff.mp hsm
      rw [List.mem_filter] at this
      rw [smem_iff.mpr hx] at this
      simpa using this.2
  · rw [setEq_iff]
    intro x
    rw [List.mem_filter]
    constructor
    · intro hx
      exact ⟨smem_iff.mp (List.all_eq_true.mp hpred x hx), smem_iff.mpr hx⟩
    · intro hx
      exact smem_iff.mp hx.2
· intro hpredf x
  have hFlookn : lookupC (row.filter (fun cv => vs.all (fun x => smem x cv.2))) cv.1 =
      none := by
    cases hFv : lookupC (row.filter (fun cv => vs.all (fun x => smem x cv.2))) cv.1 with
    | none => rfl
    | some w =>
      have hw := lookupC_isSome_mem hFv
      have hwrow : ((cv.1, w) : Cell × CSet) ∈ row := List.mem_of_mem_filter hw
      have heqcv : ((cv.1, w) : Cell × CSet) = cv := mem_key_unique hkeys hwrow hcv rfl
      have hpredw := (List.mem_filter.mp hw).2
      rw [heqcv] at hpredw
      rw [hpredw] at hpredf
      cases hpredf
  have hhidn : lookupC ((row.filter (fun cv => vs.all (fun x => smem x cv.2))).map
      (fun cv => (cv.1, vs))) cv.1 = none := by
    rw [hhidlook, hFlookn]
    rfl
  have hrepl : lookupC (replaceUpd row ((row.filter (fun cv => vs.all (fun x => smem x cv.2))).map
      (fun cv => (cv.1, vs)))) cv.1 = some cv.2 := by
    rw [lookupC_replaceUpd_some hlookrow, hhidn]
    rfl
  have hdelval : invertVal ((row.filter (fun cv => vs.all (fun x => smem x cv.2))).map
      (fun cv => (cv.1, vs))) cv.1 =
      (((row.filter (fun cv => vs.all (fun x => smem x cv.2))).map
        (fun cv => (cv.1, vs))).foldl
          (fun acc kv => if kv.1 = cv.1 then acc else sunion acc kv.2) []) := by
    unfold invertVal
    rw [hhidn]
    rfl
  have htot : ∀ y, y ∈ (((row.filter (fun cv => vs.all (fun x => smem x cv.2))).map
      (fun cv => (cv.1, vs))).foldl
        (fun acc kv => if kv.1 = cv.1 then acc else sunion acc kv.2) []) ↔ y ∈ vs := by
    intro y
    rw [invertTot_mem]
    constructor
    · rintro (h | ⟨kv, hkv, -, hy⟩)
      · cases h
      · rw [(hkeyne kv hkv).1] at hy
        exact hy
    · intro hy
      cases hFv : row.filter (fun cv => vs.all (fun x => smem x cv.2)) with
      | nil => exact absurd hFv hFne
      | cons a l =>
        refine Or.inr ⟨(a.1, vs), List.mem_map.mpr ⟨a, List.mem_cons_self _ _, rfl⟩, ?_, hy⟩
        refine (hkeyne (a.1, vs) ?_).2 hpredf
        rw [hFv]
        exact List.mem_map.mpr ⟨a, List.mem_cons_self _ _, rfl⟩
  rw [hres, getCell_removeUpd_some hrepl, hdel, hdelval]
  rw [mem_sdiff]
  constructor
  · rintro ⟨h1, h2⟩
    exact ⟨h1, fun hx => h2 ((htot x).mpr hx)⟩
  · rintro ⟨h1, h2⟩
    exact ⟨h1, fun hx => h2 ((htot x).mp hx)⟩

/-- Witness for C8 at a concrete slice with the unique hidden single
`{1}` confined to cell `(1,1)`. -/
theorem claim_C8_witness :
    ([((1, 1), [1, 2]), ((1, 2), [2])].filter
        (fun cv => ([1] : CSet).all (fun x => smem x cv.2))).length = 1
    ∧ findHiddenGroups [((1, 1), [1, 2]), ((1, 2), [2])] 1 = [((1, 1), [1])]
    ∧ getCell (hiddenPart [((1, 1), [1, 2]), ((1, 2), [2])]
        ([((1, 1), [1, 2]), ((1, 2), [2])].map (fun cv => (cv.1, cv.2, true))) 1).1 (1, 1) =
      [1] := by
have h := claim_C8 [((1, 1), [1, 2]), ((1, 2), [2])] 1 [1]
  (by decide) (by decide) (by decide) (by decide) (by decide)
refine ⟨h.1, ?_, ((h.2.2.2 ((1, 1), [1, 2]) (by decide)).1 (by decide)).1⟩
rw [h.2.2.1]
decide

/-! ## Claim C3: the search step -/

theorem minBySize_spec {l : List (Cell × CSet)} {kv : Cell × CSet}
    (h : minBySize l = some kv) :
    kv ∈ l ∧ ∀ kv' ∈ l, kv.2.length ≤ kv'.2.length := by
cases l with
| nil => cases h
| cons a rest =>
  unfold minBySize at h
  injection h with h
  have main : ∀ (xs : List (Cell × CSet)) (b : Cell × CSet),
      (xs.foldl (fun best x => if x.2.length < best.2.length then x else best) b) ∈ b :: xs
      ∧ (xs.foldl (fun best x => if x.2.length < best.2.length then x else best) b).2.length
          ≤ b.2.length
      ∧ ∀ x ∈ xs,
        (xs.foldl (fun best x => if x.2.length < best.2.length then x else best) b).2.length
          ≤ x.2.length := by
    intro xs
    induction xs with
    | nil =>
      intro b
      exact ⟨List.mem_cons_self _ _, Nat.le_refl _, fun x hx => absurd hx (List.not_mem_nil x)⟩
    | cons x xs ih =>
      intro b
      simp only [List.foldl_cons]
      by_cases hx : x.2.length < b.2.length
      · rw [if_pos hx]
        obtain ⟨hmem, hle, hall⟩ := ih x
        refine ⟨List.mem_cons_of_mem _ hmem, ?_, ?_⟩
        · exact Nat.le_trans hle (Nat.le_of_lt hx)
        · intro y hy
          rcases List.mem_cons.mp hy with rfl | hy
          · exact hle
          · exact hall y hy
      · rw [if_neg hx]
        obtain ⟨hmem, hle, hall⟩ := ih b
        refine ⟨?_, hle, ?_⟩
        · rcases List.mem_cons.mp hmem with hh | hh
          · rw [hh]
            exact List.mem_cons_self _ _
          · exact List.mem_cons_of_mem _ (List.mem_cons_of_mem _ hh)
        · intro y hy
          rcases List.mem_cons.mp hy with rfl | hy
          · exact Nat.le_trans hle (Nat.le_of_not_lt hx)
          · exact hall y hy
  obtain ⟨hmem, hle, hall⟩ := main rest a
  subst h
  refine ⟨hmem, ?_⟩
  intro kv' hkv'
  rcases List.mem_cons.mp hkv' with rfl | hkv'
  · exact hle
  · exact hall kv' hkv'

theorem tryChoices_first_success (solver : Grid → SolveRes) (g : Grid) (c : Cell)
    (vs₂ : List Nat) (g' : Grid) :
    ∀ (vs₁ : List Nat) (v : Nat),
      (∀ u ∈ vs₁, solver (replaceUpd g [(c, [u])]) = .err .noSolution) →
      solver (replaceUpd g [(c, [v])]) = .solved g' →
      tryChoices solver g c (vs₁ ++ v :: vs₂) = .solved g' := by
intro vs₁
induction vs₁ with
| nil =>
  intro v _ hsucc
  simp only [List.nil_append, tryChoices, hsucc]
| cons u us ih =>
  intro v hfail hsucc
  simp only [List.cons_append, tryChoices, hfail u (List.mem_cons_self _ _)]
  exact ih v (fun u' hu' => hfail u' (List.mem_cons_of_mem _ hu')) hsucc

theorem tryChoices_all_fail (solver : Grid → SolveRes) (g : Grid) (c : Cell) :
    ∀ (vs : List Nat),
      (∀ u ∈ vs, solver (replaceUpd g [(c, [u])]) = .err .noSolution) →
      tryChoices solver g c vs = .err .noSolution := by
intro vs
induction vs with
| nil => intro _; rfl
| cons u us ih =>
  intro hfail
  simp only [tryChoices, hfail u (List.mem_cons_self _ _)]
  exact ih (fun u' hu' => hfail u' (List.mem_cons_of_mem _ hu'))

theorem solveFuel_branch {fuel : Nat} {p : Puzzle} {g g2 : Grid} {cv : Cell × CSet}
    (h1 : isSolved p g = .ok false)
    (h2 : reduceRowsColsFuel (fuel + 1) p.size (reduceCages p g) = .ok g2)
    (h3 : gridEq g2 g = true)
    (h4 : isSolved p g2 = .ok false)
    (h5 : minBySize (unsolvedCells g2) = some cv) :
    solveFuel (fuel + 1) p g = tryChoices (solveFuel fuel p) g2 cv.1 cv.2 := by
unfold solveFuel
simp [h1, h2, h3, h4, h5]

/-- C3: at a fixpoint that is neither solved nor conflicted, the search
step selects the first cell of smallest candidate-set size greater than 1,
tries its values in iteration order on a cloned grid each, adopts the
first branch reaching a solved state and stops, and raises the no-solution
signal exactly when every value of the chosen cell is exhausted. -/
theorem claim_C3 (fuel : Nat) (p : Puzzle) (g g2 : Grid) (cv : Cell × CSet)
    (h1 : isSolved p g = .ok false)
    (h2 : reduceRowsColsFuel (fuel + 1) p.size (reduceCages p g) = .ok g2)
    (h3 : gridEq g2 g = true)
    (h4 : isSolved p g2 = .ok false)
    (h5 : minBySize (unsolvedCells g2) = some cv) :
    (cv ∈ unsolvedCells g2 ∧ 1 < cv.2.length
      ∧ ∀ kv' ∈ unsolvedCells g2, cv.2.length ≤ kv'.2.length)
    ∧ (∀ (vs₁ : List Nat) (v : Nat) (vs₂ : List Nat) (g' : Grid),
        cv.2 = vs₁ ++ v :: vs₂ →
        (∀ u ∈ vs₁, solveFuel fuel p (replaceUpd g2 [(cv.1, [u])]) = .err .noSolution) →
        solveFuel fuel p (replaceUpd g2 [(cv.1, [v])]) = .solved g' →
        solveFuel (fuel + 1) p g = .solved g')
    ∧ ((∀ v ∈ cv.2, solveFuel fuel p (replaceUpd g2 [(cv.1, [v])]) = .err .noSolution) →
        solveFuel (fuel + 1) p g = .err .noSolution) := by
obtain ⟨hmem, hmin⟩ := minBySize_spec h5
have hlen : 1 < cv.2.length := by
  have := List.mem_filter.mp hmem
  simpa using this.2
refine ⟨⟨hmem, hlen, hmin⟩, ?_, ?_⟩
· intro vs₁ v vs₂ g' hsplit hfail hsucc
  rw [solveFuel_branch h1 h2 h3 h4 h5, hsplit]
  exact tryChoices_first_success (solveFuel fuel p) g2 cv.1 vs₂ g' vs₁ v hfail hsucc
· intro hfail
  rw [solveFuel_branch h1 h2 h3 h4 h5]
  exact tryChoices_all_fail (solveFuel fuel p) g2 cv.1 cv.2 hfail

/-- Witness for C3 on the 2×2 puzzle with a single `+ 6` cage, whose
propagation fixpoint leaves every cell with `{1, 2}`. -/
theorem claim_C3_witness :
    (((1, 1), [1, 2]) ∈
        unsolvedCells [((1, 1), [1, 2]), ((1, 2), [2, 1]), ((2, 1), [2, 1]), ((2, 2), [1, 2])]
      ∧ 1 < ([1, 2] : CSet).length
      ∧ ∀ kv' ∈
          unsolvedCells [((1, 1), [1, 2]), ((1, 2), [2, 1]), ((2, 1), [2, 1]), ((2, 2), [1, 2])],
          ([1, 2] : CSet).length ≤ kv'.2.length)
    ∧ solveFuel 6 ⟨2, [⟨[(1, 1), (1, 2), (2, 1), (2, 2)], 6, some .add⟩]⟩ (initGrid 2) =
        .solved [((1, 1), [1]), ((1, 2), [2]), ((2, 1), [2]), ((2, 2), [1])] :=
⟨(claim_C3 5 ⟨2, [⟨[(1, 1), (1, 2), (2, 1), (2, 2)], 6, some .add⟩]⟩ (initGrid 2)
    [((1, 1), [1, 2]), ((1, 2), [2, 1]), ((2, 1), [2, 1]), ((2, 2), [1, 2])]
    ((1, 1), [1, 2]) (by decide) (by decide) (by decide) (by decide) (by decide)).1,
 (claim_C3 5 ⟨2, [⟨[(1, 1), (1, 2), (2, 1), (2, 2)], 6, some .add⟩]⟩ (initGrid 2)
    [((1, 1), [1, 2]), ((1, 2), [2, 1]), ((2, 1), [2, 1]), ((2, 2), [1, 2])]
    ((1, 1), [1, 2]) (by decide) (by decide) (by decide) (by decide) (by decide)).2.1
  [] 1 [2] [((1, 1), [1]), ((1, 2), [2]), ((2, 1), [2]), ((2, 2), [1])] rfl
  (fun u hu => absurd hu (List.not_mem_nil u)) (by decide)⟩

/-! ## Claim C5: the combination enumerator -/

theorem mem_valueTuples {size k : Nat} {vals : List Nat} :
    vals ∈ valueTuples size k ↔ vals.length = k ∧ ∀ v ∈ vals, 1 ≤ v ∧ v ≤ size := by
induction k generalizing vals with
| zero =>
  simp only [valueTuples, List.mem_singleton]
  constructor
  · rintro rfl
    exact ⟨rfl, by simp⟩
  · rintro ⟨hlen, -⟩
    exact List.length_eq_zero.mp hlen
| succ k ih =>
  simp only [valueTuples, List.mem_flatMap, List.mem_map]
  constructor
  · rintro ⟨v, hv, vals', hvals', rfl⟩
    obtain ⟨hv1, hv2⟩ := List.mem_range'_1.mp hv
    obtain ⟨hlen, hall⟩ := ih.mp hvals'
    refine ⟨by simp [hlen], ?_⟩
    intro x hx
    rcases List.mem_cons.mp hx with rfl | hx
    · exact ⟨hv1, by omega⟩
    · exact hall x hx
  · rintro ⟨hlen, hall⟩
    cases vals with
    | nil => simp at hlen
    | cons v vs =>
      have hv := hall v (List.mem_cons_self _ _)
      refine ⟨v, List.mem_range'_1.mpr ⟨hv.1, by omega⟩, vs, ?_, rfl⟩
      exact ih.mpr ⟨by simpa using hlen, fun x hx => hall x (List.mem_cons_of_mem _ hx)⟩

theorem crosscheck_iff {combo : CageCombo} :
    crosscheck combo = true ↔
      ∀ a b : Cell × Nat, List.Sublist [a, b] combo →
        (a.1.1 = b.1.1 ∨ a.1.2 = b.1.2) → a.2 ≠ b.2 := by
induction combo with
| nil =>
  constructor
  · intro _ a b hsub
    have := hsub.length_le
    simp at this
  · intro _
    rfl
| cons cv rest ih =>
  unfold crosscheck
  rw [Bool.and_eq_true_iff, List.all_eq_true, ih]
  constructor
  · rintro ⟨hhead, hrest⟩ a b hsub hline heq
    rcases List.sublist_cons_iff.mp hsub with hsub' | ⟨r, hr, hrsub⟩
    · exact hrest a b hsub' hline heq
    · injection hr with ha hr'
      subst ha
      subst hr'
      have hb : b ∈ rest := List.singleton_sublist.mp hrsub
      have := hhead b hb
      simp only [Bool.not_eq_eq_eq_not, Bool.not_true, Bool.and_eq_false_iff] at this
      rcases this with h' | h'
      · exact absurd heq (by simpa using h')
      · rcases hline with hl | hl
        · rcases Bool.or_eq_false_iff.mp h' with ⟨h1, -⟩
          exact absurd hl (by simpa using h1)
        · rcases Bool.or_eq_false_iff.mp h' with ⟨-, h2⟩
          exact absurd hl (by simpa using h2)
  · intro hpairs
    constructor
    · intro b hb
      have hne := hpairs cv b (List.cons_sublist_cons.mpr (List.singleton_sublist.mpr hb))
      by_cases hline : cv.1.1 = b.1.1 ∨ cv.1.2 = b.1.2
      · have := hne hline
        simp only [Bool.not_eq_eq_eq_not, Bool.not_true, Bool.and_eq_false_iff]
        exact Or.inl (by simpa using this)
      · simp only [Bool.not_eq_eq_eq_not, Bool.not_true, Bool.and_eq_false_iff]
        refine Or.inr (Bool.or_eq_false_iff.mpr ⟨?_, ?_⟩)
        · simpa using fun h => hline (Or.inl h)
        · simpa using fun h => hline (Or.inr h)
    · exact fun a b hsub => hpairs a b (hsub.cons cv)

theorem mem_getPossibleCombos {cage : Cage} {size : Nat} {combo : CageCombo}
    (h2 : cage.cells.length ≠ 1) :
    combo ∈ getPossibleCombos cage size ↔
      combo.map Prod.fst = cage.cells
      ∧ (∀ cv ∈ combo, 1 ≤ cv.2 ∧ cv.2 ≤ size)
      ∧ crosscheck combo = true
      ∧ getsRightResult (combo.map Prod.snd) cage.operation cage.result = true := by
unfold getPossibleCombos
rw [if_neg h2, List.mem_filterMap]
constructor
· rintro ⟨values, hvals, hf⟩
  obtain ⟨hlen, hbound⟩ := mem_valueTuples.mp hvals
  simp only at hf
  by_cases hc : (crosscheck (cage.cells.zip values)
      && getsRightResult ((cage.cells.zip values).map Prod.snd) cage.operation cage.result) = true
  · rw [if_pos hc] at hf
    injection hf with hf
    subst hf
    obtain ⟨hcc, hrr⟩ := Bool.and_eq_true_iff.mp hc
    refine ⟨List.map_fst_zip _ _ (by omega), ?_, hcc, hrr⟩
    intro cv hcv
    exact hbound cv.2 (List.of_mem_zip hcv).2
  · rw [if_neg hc] at hf
    cases hf
· rintro ⟨hmap, hbound, hcc, hrr⟩
  refine ⟨combo.map Prod.snd, ?_, ?_⟩
  · refine mem_valueTuples.mpr ⟨?_, ?_⟩
    · have := congrArg List.length hmap
      simpa using this
    · intro v hv
      obtain ⟨cv, hcv, rfl⟩ := List.mem_map.mp hv
      exact hbound cv hcv
  · have hzip : combo = cage.cells.zip (combo.map Prod.snd) :=
      List.zip_of_prod hmap rfl
    simp only [← hzip, hcc, hrr]
    rfl

/-- C5: the enumerator returns exactly the assignments of values in
`[1, N]` to the cage's cells that avoid equal values in two cells sharing
a row or a column and make the arithmetic relation hold; for the cage
`{(1,1),(1,2)}` with `-` and result 1 on a 4×4 grid it returns exactly the
value pairs (1,2), (2,1), (2,3), (3,2), (3,4), (4,3); a singleton cage
yields the single combination mapping its cell to the cage's result. -/
theorem claim_C5 (cage : Cage) (size : Nat) (combo : CageCombo)
    (h2 : 2 ≤ cage.cells.length) :
    (combo ∈ getPossibleCombos cage size ↔
      combo.map Prod.fst = cage.cells
      ∧ (∀ cv ∈ combo, 1 ≤ cv.2 ∧ cv.2 ≤ size)
      ∧ (∀ a b : Cell × Nat, List.Sublist [a, b] combo →
          (a.1.1 = b.1.1 ∨ a.1.2 = b.1.2) → a.2 ≠ b.2)
      ∧ getsRightResult (combo.map Prod.snd) cage.operation cage.result = true)
    ∧ getPossibleCombos ⟨[(1, 1), (1, 2)], 1, some .sub⟩ 4 =
        [[((1, 1), 1), ((1, 2), 2)], [((1, 1), 2), ((1, 2), 1)],
         [((1, 1), 2), ((1, 2), 3)], [((1, 1), 3), ((1, 2), 2)],
         [((1, 1), 3), ((1, 2), 4)], [((1, 1), 4), ((1, 2), 3)]]
    ∧ (∀ (cage' : Cage) (c : Cell), cage'.cells = [c] →
        getPossibleCombos cage' size = [[(c, cage'.result)]]) := by
refine ⟨?_, by decide, ?_⟩
· rw [mem_getPossibleCombos (by omega), crosscheck_iff]
· intro cage' c hc
  unfold getPossibleCombos
  rw [hc]
  rfl

/-- Witness for C5 at the concrete 4×4 subtraction cage. -/
theorem claim_C5_witness :
    ([((1, 1), 1), ((1, 2), 2)] ∈
        getPossibleCombos ⟨[(1, 1), (1, 2)], 1, some .sub⟩ 4 ↔
      [((1, 1), 1), ((1, 2), 2)].map Prod.fst = [(1, 1), (1, 2)]
      ∧ (∀ cv ∈ [((1, 1), 1), ((1, 2), 2)], 1 ≤ cv.2 ∧ cv.2 ≤ 4)
      ∧ (∀ a b : Cell × Nat, List.Sublist [a, b] [((1, 1), 1), ((1, 2), 2)] →
          (a.1.1 = b.1.1 ∨ a.1.2 = b.1.2) → a.2 ≠ b.2)
      ∧ getsRightResult ([((1, 1), 1), ((1, 2), 2)].map Prod.snd) (some .sub) 1 = true)
    ∧ (∀ (cage' : Cage) (c : Cell), cage'.cells = [c] →
        getPossibleCombos cage' 4 = [[(c, cage'.result)]]) :=
⟨(claim_C5 ⟨[(1, 1), (1, 2)], 1, some .sub⟩ 4 [((1, 1), 1), ((1, 2), 2)] (by decide)).1,
 (claim_C5 ⟨[(1, 1), (1, 2)], 1, some .sub⟩ 4 [((1, 1), 1), ((1, 2), 2)] (by decide)).2.2⟩

/-! ## Claim C4: the solved-state validator -/

theorem getD_map_range {α : Type} (n k : Nat) (f : Nat → α) (d : α) (hk : k < n) :
    ((List.range n).map f).getD k d = f k := by
rw [List.getD_eq_getElem?_getD, List.getElem?_map, List.getElem?_range hk]
rfl

/-- C4: on a grid whose candidate sets are all singletons, `_is_solved`
succeeds exactly when every cage's extracted numbers produce the cage's
result and the extracted values of every row and every column are exactly
the set `{1, ..., N}`; otherwise it raises the same `NoSolutionError` as
mid-propagation conflicts; and the saved solution grid stores the value of
1-indexed cell `(i, j)` at 0-indexed row-major position `[i-1][j-1]`. -/
theorem claim_C4 (p : Puzzle) (g : Grid)
    (hall : (g.all (fun cv => cv.2.length = 1)) = true) :
    (isSolved p g = .ok true ↔
      (∀ cage ∈ p.cages,
        getsRightResult (firstVals g cage.cells) cage.operation cage.result = true)
      ∧ (∀ mode ∈ [true, false], ∀ i ∈ List.range' 1 p.size,
          (firstVals g (sliceCells p.size mode i)).toFinset =
            (List.range' 1 p.size).toFinset))
    ∧ (isSolved p g = .ok true ∨ isSolved p g = .error .noSolution)
    ∧ (∀ i j, i ∈ List.range' 1 p.size → j ∈ List.range' 1 p.size →
        ((extractSolution p.size g).getD (i - 1) []).getD (j - 1) 0 =
          (getCell g (i, j)).headD 0) := by
have hiff : (cagesOk p g && linesOk p.size g) = true ↔
    (∀ cage ∈ p.cages,
      getsRightResult (firstVals g cage.cells) cage.operation cage.result = true)
    ∧ (∀ mode ∈ [true, false], ∀ i ∈ List.range' 1 p.size,
        (firstVals g (sliceCells p.size mode i)).toFinset =
          (List.range' 1 p.size).toFinset) := by
  rw [Bool.and_eq_true_iff]
  unfold cagesOk linesOk
  rw [List.all_eq_true, List.all_eq_true]
  constructor
  · rintro ⟨h1, h2⟩
    refine ⟨h1, ?_⟩
    intro mode hmode i hi
    have := List.all_eq_true.mp (h2 mode hmode) i hi
    rw [setEq_toFinset, dedupSort_toFinset] at this
    exact this
  · rintro ⟨h1, h2⟩
    refine ⟨h1, ?_⟩
    intro mode hmode
    rw [List.all_eq_true]
    intro i hi
    rw [setEq_toFinset, dedupSort_toFinset]
    exact h2 mode hmode i hi
have hsolved : isSolved p g =
    if cagesOk p g && linesOk p.size g then .ok true else .error .noSolution := by
  unfold isSolved
  rw [hall]
  rfl
refine ⟨?_, ?_, ?_⟩
· rw [hsolved]
  by_cases hc : (cagesOk p g && linesOk p.size g) = true
  · rw [if_pos hc]
    exact ⟨fun _ => hiff.mp hc, fun _ => rfl⟩
  · rw [if_neg hc]
    constructor
    · intro hcontra
      cases hcontra
    · intro hprops
      exact absurd (hiff.mpr hprops) hc
· rw [hsolved]
  by_cases hc : (cagesOk p g && linesOk p.size g) = true
  · rw [if_pos hc]
    exact Or.inl rfl
  · rw [if_neg hc]
    exact Or.inr rfl
· intro i j hi hj
  obtain ⟨hi1, hi2⟩ := List.mem_range'_1.mp hi
  obtain ⟨hj1, hj2⟩ := List.mem_range'_1.mp hj
  have hi' : i - 1 + 1 = i := by omega
  have hj' : j - 1 + 1 = j := by omega
  unfold extractSolution
  rw [getD_map_range _ _ _ _ (by omega)]
  rw [getD_map_range _ _ _ _ (by omega)]
  rw [hi', hj']

/-- Witness for C4 at a concrete solved 2×2 grid. -/
theorem claim_C4_witness :
    (isSolved ⟨2, [⟨[(1, 1)], 1, none⟩, ⟨[(1, 2)], 2, none⟩, ⟨[(2, 1)], 2, none⟩,
        ⟨[(2, 2)], 1, none⟩]⟩
      [((1, 1), [1]), ((1, 2), [2]), ((2, 1), [2]), ((2, 2), [1])] = .ok true
      ∨ isSolved ⟨2, [⟨[(1, 1)], 1, none⟩, ⟨[(1, 2)], 2, none⟩, ⟨[(2, 1)], 2, none⟩,
          ⟨[(2, 2)], 1, none⟩]⟩
        [((1, 1), [1]), ((1, 2), [2]), ((2, 1), [2]), ((2, 2), [1])] = .error .noSolution)
    ∧ ((extractSolution 2
        [((1, 1), [1]), ((1, 2), [2]), ((2, 1), [2]), ((2, 2), [1])]).getD 0 []).getD 1 0 =
      (getCell [((1, 1), [1]), ((1, 2), [2]), ((2, 1), [2]), ((2, 2), [1])] (1, 2)).headD 0 :=
⟨(claim_C4 ⟨2, [⟨[(1, 1)], 1, none⟩, ⟨[(1, 2)], 2, none⟩, ⟨[(2, 1)], 2, none⟩,
    ⟨[(2, 2)], 1, none⟩]⟩
  [((1, 1), [1]), ((1, 2), [2]), ((2, 1), [2]), ((2, 2), [1])] (by decide)).2.1,
 (claim_C4 ⟨2, [⟨[(1, 1)], 1, none⟩, ⟨[(1, 2)], 2, none⟩, ⟨[(2, 1)], 2, none⟩,
    ⟨[(2, 2)], 1, none⟩]⟩
  [((1, 1), [1]), ((1, 2), [2]), ((2, 1), [2]), ((2, 2), [1])] (by decide)).2.2
  1 2 (by decide) (by decide)⟩

end KenKenPy
